import Mathlib

/-
Shallow embedding of `Documentation/scripts/nest-toc.py`, the table-of-contents
post-processor of the Nebula repository, together with theorems settling the
specification claims about it.  Python dictionaries for namespaces and items
become Lean records, in-place mutation becomes explicit state passing, and the
exceptions the script can raise (subscripting `None`, testing `'.' in None`)
become `Option` results where `none` marks the raised exception.
-/

namespace NestToc

/-! ## Python string primitives -/

/-- ASCII whitespace recognized by Python `str.strip` / `str.lstrip`. -/
def isPyWS (c : Char) : Bool :=
  c == ' ' || c == '\t' || c == '\n' || c == '\r' || c == '\x0b' || c == '\x0c'

/-- Remove trailing Python whitespace from a character list. -/
def dropEndWS (l : List Char) : List Char :=
  (l.reverse.dropWhile isPyWS).reverse

/-- Python `str.strip` on a character list. -/
def pyStripL (l : List Char) : List Char :=
  dropEndWS (l.dropWhile isPyWS)

/-- Python `line.strip()`. -/
def pyStrip (s : String) : String :=
  ⟨pyStripL s.data⟩

/-- Python `line.lstrip()`. -/
def pyLstrip (s : String) : String :=
  ⟨s.data.dropWhile isPyWS⟩

/-- Python `len(line) - len(line.lstrip())`, the indentation width. -/
def pyIndent (s : String) : Nat :=
  s.data.length - (pyLstrip s).data.length

/-- Python `s.startswith(p)`. -/
def strStarts (s p : String) : Bool :=
  p.data.isPrefixOf s.data

/-- Whether `pat` occurs as a contiguous sublist of `l`. -/
def occurs (pat : List Char) : List Char → Bool
  | [] => pat.isEmpty
  | c :: rest => pat.isPrefixOf (c :: rest) || occurs pat rest

/-- Structurally recursive worker for `removeAll`: the fuel starts at the
length of the list and each step consumes at least one character, so the
fuel-exhausted branch is unreachable. -/
def removeAllF (pat : List Char) : Nat → List Char → List Char
  | _, [] => []
  | 0, l => l
  | fuel + 1, c :: rest =>
    if pat.isPrefixOf (c :: rest) then
      removeAllF pat fuel (rest.drop (pat.length - 1))
    else
      c :: removeAllF pat fuel rest

/-- Python `s.replace(pat, '')`: delete every occurrence of `pat`, scanning
left to right and resuming after each deleted occurrence. -/
def removeAll (pat : List Char) (l : List Char) : List Char :=
  removeAllF pat l.length l

/-- Python `stripped.replace(pat, '').strip()`, used to extract field values. -/
def fieldValue (pat : String) (stripped : String) : String :=
  ⟨pyStripL (removeAll pat.data stripped.data)⟩

/-- Python `content.split('\n')` on a character list. -/
def splitOnNl : List Char → List (List Char)
  | [] => [[]]
  | c :: rest =>
    if c = '\n' then [] :: splitOnNl rest
    else
      match splitOnNl rest with
      | [] => [[c]]
      | r :: rs => (c :: r) :: rs

/-- Python `content.split('\n')`. -/
def splitLines (s : String) : List String :=
  (splitOnNl s.data).map (fun cs => ⟨cs⟩)

/-- Python `'\n'.join(lines)` on character lists. -/
def joinNlL : List (List Char) → List Char
  | [] => []
  | [l] => l
  | l :: l2 :: ls => l ++ '\n' :: joinNlL (l2 :: ls)

/-- Python `'\n'.join(lines)`. -/
def joinNl (ls : List String) : String :=
  ⟨joinNlL (ls.map String.data)⟩

/-- Python `str()` of an optional string field: `None` prints as `"None"`. -/
def pyShow : Option String → String
  | none => "None"
  | some s => s

/-! ## Data model

An item dictionary `{'uid': .., 'name': .., 'type': .., 'children': [..]}`.
The parser creates items without a `'children'` key, which behaves the same
as an empty child list in `write_toc`; we represent both as `[]`. -/

inductive Item : Type where
  | mk : String → Option String → Option String → List Item → Item

mutual

def Item.decEq : (a b : Item) → Decidable (a = b)
  | .mk u1 n1 t1 c1, .mk u2 n2 t2 c2 =>
    @decidable_of_iff (Item.mk u1 n1 t1 c1 = Item.mk u2 n2 t2 c2)
      (u1 = u2 ∧ n1 = n2 ∧ t1 = t2 ∧ c1 = c2)
      (Iff.of_eq (Item.mk.injEq u1 n1 t1 c1 u2 n2 t2 c2)).symm
      (@instDecidableAnd _ _ inferInstance
        (@instDecidableAnd _ _ inferInstance
          (@instDecidableAnd _ _ inferInstance (Item.decEqList c1 c2))))

def Item.decEqList : (a b : List Item) → Decidable (a = b)
  | [], [] => isTrue rfl
  | [], _ :: _ => isFalse (fun h => List.noConfusion h)
  | _ :: _, [] => isFalse (fun h => List.noConfusion h)
  | x :: xs, y :: ys =>
    @decidable_of_iff (x :: xs = y :: ys) (x = y ∧ xs = ys)
      (Iff.of_eq (List.cons.injEq x xs y ys)).symm
      (@instDecidableAnd _ _ (Item.decEq x y) (Item.decEqList xs ys))

end

instance : DecidableEq Item := Item.decEq

def Item.uid : Item → String
  | .mk u _ _ _ => u

def Item.name : Item → Option String
  | .mk _ n _ _ => n

def Item.type : Item → Option String
  | .mk _ _ t _ => t

def Item.children : Item → List Item
  | .mk _ _ _ cs => cs

/-- In-place `current_item['name'] = v` (unconditional overwrite). -/
def Item.setName (v : String) : Item → Item
  | .mk u _ t cs => .mk u (some v) t cs

/-- In-place `current_item['type'] = v` (unconditional overwrite). -/
def Item.setType (v : String) : Item → Item
  | .mk u n _ cs => .mk u n (some v) cs

/-- In-place `potential_parent['children'].append(ch)`. -/
def Item.addChild : Item → Item → Item
  | .mk u n t cs, ch => .mk u n t (cs ++ [ch])

/-- A namespace dictionary `{'uid': .., 'name': .., 'type': .., 'items': [..]}`. -/
structure Namespace : Type where
  uid : String
  name : Option String
  type : Option String
  items : List Item
deriving DecidableEq

/-! ## Parser (`parse_toc`) -/

/-- Parser state: the flushed result, the namespace being accumulated, and
whether `current_item` is set (the current item is always the most recently
appended item of the current namespace, since the Python code mutates the
dictionary it just appended). -/
structure PState : Type where
  result : List Namespace
  curNs : Option Namespace
  curItem : Bool
deriving DecidableEq

def flushList : Option Namespace → List Namespace
  | none => []
  | some ns => [ns]

/-- Apply `f` to the last element of a list (the aliased `current_item`). -/
def modLast (f : Item → Item) : List Item → List Item
  | [] => []
  | [x] => [f x]
  | x :: y :: xs => x :: modLast f (y :: xs)

/-- Python truthiness of `current_namespace and current_namespace['name'] is None`. -/
def nsNameNone (st : PState) : Bool :=
  match st.curNs with
  | some ns => ns.name.isNone
  | none => false

/-- Python truthiness of `current_namespace and current_namespace['type'] is None`. -/
def nsTypeNone (st : PState) : Bool :=
  match st.curNs with
  | some ns => ns.type.isNone
  | none => false

/-- One iteration of the `while i < len(lines)` loop of `parse_toc`: branch
structure and order mirror the Python `if`/`elif` chain.  Returns `none` for
the one raising path: an item entry line at indentation 2 while
`current_namespace` is `None` (`None['items']` raises `TypeError`). -/
def parseLine (st : PState) (line : String) : Option PState :=
  let stripped := pyStrip line
  if stripped = "" || strStarts stripped "###" then some st
  else
    let indent := pyIndent line
    if stripped = "items:" && indent == 0 then some st
    else if strStarts stripped "- uid:" && indent == 0 then
      some { result := st.result ++ flushList st.curNs,
             curNs := some ⟨fieldValue "- uid:" stripped, none, none, []⟩,
             curItem := false }
    else if strStarts stripped "name:" && indent == 2 && nsNameNone st then
      some { st with curNs := st.curNs.map (fun ns => { ns with name := some (fieldValue "name:" stripped) }) }
    else if strStarts stripped "type:" && indent == 2 && nsTypeNone st then
      some { st with curNs := st.curNs.map (fun ns => { ns with type := some (fieldValue "type:" stripped) }) }
    else if stripped = "items:" && indent == 2 then some st
    else if strStarts stripped "- uid:" && indent == 2 then
      match st.curNs with
      | none => none
      | some ns =>
        some { st with
               curNs := some { ns with items := ns.items ++ [.mk (fieldValue "- uid:" stripped) none none []] },
               curItem := true }
    else if strStarts stripped "name:" && indent == 4 && st.curItem then
      some { st with curNs := st.curNs.map (fun ns => { ns with items := modLast (Item.setName (fieldValue "name:" stripped)) ns.items }) }
    else if strStarts stripped "type:" && indent == 4 && st.curItem then
      some { st with curNs := st.curNs.map (fun ns => { ns with items := modLast (Item.setType (fieldValue "type:" stripped)) ns.items }) }
    else some st

/-- The whole line loop. -/
def parseLines : List String → PState → Option PState
  | [], st => some st
  | l :: ls, st =>
    match parseLine st l with
    | none => none
    | some st' => parseLines ls st'

/-- The final `if current_namespace: result.append(current_namespace)`. -/
def finalize (st : PState) : List Namespace :=
  st.result ++ flushList st.curNs

/-- `parse_toc(content)`; `none` models the `TypeError` raising path. -/
def parse_toc (content : String) : Option (List Namespace) :=
  (parseLines (splitLines content) ⟨[], none, false⟩).map finalize

/-! ## Nester (`nest_items`) -/

/-- `name.rsplit('.', 1)[0]` for a name containing a dot. -/
def rsplitParent (s : String) : String :=
  ⟨((s.data.reverse.dropWhile (· != '.')).drop 1).reverse⟩

/-- `name.rsplit('.', 1)[1]` for a name containing a dot. -/
def rsplitChild (s : String) : String :=
  ⟨(s.data.reverse.takeWhile (· != '.')).reverse⟩

/-- The child dictionary built for a nested item: identifier and kind copied
verbatim, display name replaced by the short suffix. -/
def childOf (it : Item) (cname : String) : Item :=
  .mk it.uid (some cname) it.type []

/-- The `for potential_parent in items: .. break` scan: append `ch` to the
children of the first item whose name equals `pname`; report whether a parent
was found. -/
def attachToFirst (pname : String) (ch : Item) : List Item → List Item × Bool
  | [] => ([], false)
  | x :: xs =>
    if x.name = some pname then (x.addChild ch :: xs, true)
    else
      let r := attachToFirst pname ch xs
      (x :: r.1, r.2)

/-- One iteration of the first pass of `nest_items` over one item.  The item's
`uid`/`name`/`type` are read from the original list: the pass only ever mutates
`children` fields, so those reads agree with the live list.  `none` models the
`TypeError` from `'.' in name` when the item's name is `None` (note
`item.get('name', '')` returns `None`, not `''`, because the key is present). -/
def nestStep (acc : List Item × List String) (it : Item) : Option (List Item × List String) :=
  match it.name with
  | none => none
  | some n =>
    if '.' ∈ n.data then
      let r := attachToFirst (rsplitParent n) (childOf it (rsplitChild n)) acc.1
      if r.2 then some (r.1, acc.2 ++ [n]) else some acc
    else some acc

/-- The first pass of `nest_items` over a namespace's item list. -/
def nestPassGo (acc : List Item × List String) : List Item → Option (List Item × List String)
  | [] => some acc
  | it :: rest =>
    match nestStep acc it with
    | none => none
    | some acc' => nestPassGo acc' rest

/-- Membership of an item's (possibly absent) name in `nested_names`. -/
def nameInSet (nested : List String) : Option String → Bool
  | some n => nested.contains n
  | none => false

/-- `nest_items` on one namespace: first pass then the filtering rebuild. -/
def nestNs (ns : Namespace) : Option Namespace :=
  if ns.items.isEmpty then some ns
  else
    match nestPassGo (ns.items, []) ns.items with
    | none => none
    | some (cur, nested) =>
      some { ns with items := cur.filter (fun it => !(nameInSet nested it.name)) }

/-- `nest_items(namespaces)`: the loop over all namespaces; an exception in
any namespace aborts the whole call. -/
def nest_items : List Namespace → Option (List Namespace)
  | [] => some []
  | ns :: rest =>
    match nestNs ns with
    | none => none
    | some ns' =>
      match nest_items rest with
      | none => none
      | some rest' => some (ns' :: rest')

/-! ## Writer (`write_toc`) -/

/-- Python `'  ' * indent`. -/
def pfx (indent : Nat) : String :=
  ⟨List.replicate (2 * indent) ' '⟩

mutual

/-- The nested `write_item` helper: the lines appended for one item. -/
def write_item : Item → Nat → List String
  | .mk u n t cs, ind =>
    (pfx ind ++ "- uid: " ++ u) ::
    (pfx ind ++ "  name: " ++ pyShow n) ::
    (pfx ind ++ "  type: " ++ pyShow t) ::
    (if cs.isEmpty then [] else (pfx ind ++ "  items:") :: write_children cs (ind + 1))

/-- Lines appended for a list of items in order. -/
def write_children : List Item → Nat → List String
  | [], _ => []
  | c :: cs, ind => write_item c ind ++ write_children cs ind

end

/-- Lines appended for one namespace by the `for ns in namespaces` loop. -/
def nsLines (ns : Namespace) : List String :=
  ("- uid: " ++ ns.uid) ::
  ("  name: " ++ pyShow ns.name) ::
  ("  type: " ++ pyShow ns.type) ::
  (if ns.items.isEmpty then [] else "  items:" :: write_children ns.items 1)

/-- The full line list built by `write_toc`. -/
def write_toc_lines (nss : List Namespace) : List String :=
  "### YamlMime:TableOfContent" :: "items:" :: nss.flatMap nsLines

/-- `write_toc(namespaces)`: `'\n'.join(lines) + '\n'`. -/
def write_toc (nss : List Namespace) : String :=
  joinNl (write_toc_lines nss) ++ "\n"

/-! ## Driver (`main`) -/

/-- Observable outcome of one run of `main`: exit status, lines printed to the
standard output and error streams, and the content of the target file
afterwards (`none` when the file does not exist). -/
structure RunResult : Type where
  exitCode : Nat
  stdoutLines : List String
  stderrLines : List String
  fileAfter : Option String
deriving DecidableEq

/-- `main()` over an abstract file system holding the target file's content.
When the pipeline raises, the process dies with a traceback on the error
stream and the file is left untouched. -/
def main_run (path : String) (file : Option String) : RunResult :=
  match file with
  | none => ⟨1, ["Error: " ++ path ++ " not found"], [], none⟩
  | some content =>
    match (parse_toc content).bind nest_items with
    | none =>
      ⟨1, ["Processing " ++ path ++ "..."], ["Traceback (most recent call last):"], some content⟩
    | some nested =>
      ⟨0, ["Processing " ++ path ++ "...", "TOC restructured successfully!"], [],
       some (write_toc nested)⟩

/-! ## Derived notions used by the theorems -/

/-- The immutable part of an item: identifier, display name, kind tag.  The
nesting pass only ever mutates `children`, never these three fields. -/
def itemKey (it : Item) : String × Option String × Option String :=
  (it.uid, it.name, it.type)

/-- `y` is `x` with possibly more children appended (the only mutation the
nesting pass performs on surviving items). -/
def ChildExt (x y : Item) : Prop :=
  y.uid = x.uid ∧ y.name = x.name ∧ y.type = x.type ∧ ∃ ext, y.children = x.children ++ ext

/-- What membership of a name in `nested_names` guarantees: the name is
dotted and some item of the namespace is named its parent part. -/
def NestedOk (items : List Item) (n : String) : Prop :=
  '.' ∈ n.data ∧ ∃ x ∈ items, x.name = some (rsplitParent n)

/-- A namespace entry line: `- uid:` at indentation 0 (this is independent of
the parser state, since no earlier branch of the chain can capture it). -/
def isNsStartLine (l : String) : Bool :=
  strStarts (pyStrip l) "- uid:" && (pyIndent l == 0)

/-- An item entry line: `- uid:` at indentation 2. -/
def isItemStartLine (l : String) : Bool :=
  strStarts (pyStrip l) "- uid:" && (pyIndent l == 2)

/-- Scan for the amended C6: every item entry line must be preceded by some
namespace entry line. -/
def okScanGo (seen : Bool) : List String → Bool
  | [] => true
  | l :: ls =>
    if isItemStartLine l && !seen then false
    else okScanGo (seen || isNsStartLine l) ls

/-- A namespace `name:` field line: `name:` at indentation 2. -/
def isNsNameLine (l : String) : Bool :=
  strStarts (pyStrip l) "name:" && (pyIndent l == 2)

/-- A namespace `type:` field line: `type:` at indentation 2. -/
def isNsTypeLine (l : String) : Bool :=
  strStarts (pyStrip l) "type:" && (pyIndent l == 2)

/-- An item `name:` field line: `name:` at indentation 4. -/
def isItemNameLine (l : String) : Bool :=
  strStarts (pyStrip l) "name:" && (pyIndent l == 4)

/-- An item `type:` field line: `type:` at indentation 4. -/
def isItemTypeLine (l : String) : Bool :=
  strStarts (pyStrip l) "type:" && (pyIndent l == 4)

/-- A field value with no surrounding whitespace (Python `strip` fixes it). -/
abbrev StrippedVal (v : String) : Prop :=
  v.data.dropWhile isPyWS = v.data ∧ v.data.reverse.dropWhile isPyWS = v.data.reverse

/-- A field value the writer can emit and the parser reads back verbatim: no
surrounding whitespace, no newline, and no occurrence of the field marker
that `replace` would delete. -/
abbrev CleanFor (pat v : String) : Prop :=
  StrippedVal v ∧ '\n' ∉ v.data ∧ occurs pat.data v.data = false

/-- Cleanliness of an optional field (an unset field prints as `None` and
does not round-trip, so it is excluded). -/
abbrev CleanOpt (pat : String) : Option String → Prop
  | none => False
  | some v => CleanFor pat v

/-- An item that round-trips: set clean fields and no children. -/
abbrev CleanItem (it : Item) : Prop :=
  it.children = [] ∧ CleanOpt "name:" it.name ∧ CleanOpt "type:" it.type ∧
  CleanFor "- uid:" it.uid

/-- A namespace that round-trips. -/
abbrev CleanNs (ns : Namespace) : Prop :=
  CleanOpt "name:" ns.name ∧ CleanOpt "type:" ns.type ∧ CleanFor "- uid:" ns.uid ∧
  ∀ it ∈ ns.items, CleanItem it

/-- A forest that round-trips. -/
abbrev CleanForest (F : List Namespace) : Prop :=
  ∀ ns ∈ F, CleanNs ns

/-! ## Concrete instances used by the counterexamples -/

/-- A namespace whose item list is exactly `[A, A.B, A.B.C]`. -/
def c1ns : Namespace :=
  ⟨"ns0", some "NS", some "Nsp",
   [.mk "u1" (some "A") (some "Class") [],
    .mk "u2" (some "A.B") (some "Class") [],
    .mk "u3" (some "A.B.C") (some "Class") []]⟩

/-- The writer output after nesting `c1ns`. -/
def c1out : List String :=
  write_toc_lines ((nest_items [c1ns]).getD [])

/-- A forest whose single item carries a child list, as produced by the nester. -/
def c2forest : List Namespace :=
  [⟨"N1", some "N1", some "Namespace",
    [.mk "a" (some "Widget") (some "Class") [.mk "b" (some "Inner") (some "Class") []]]⟩]

/-- The same forest with the child list dropped. -/
def c2flat : List Namespace :=
  [⟨"N1", some "N1", some "Namespace",
    [.mk "a" (some "Widget") (some "Class") []]⟩]

/-- A namespace with an item named `X.Y` (the `Foo` of the claim) and an item
named `X.Y.Z` (the `Foo.Bar`), where `X.Y` is itself nested away under `X`. -/
def c3ns : Namespace :=
  ⟨"n3", some "M", some "Namespace",
   [.mk "x1" (some "X") (some "Class") [],
    .mk "x2" (some "X.Y") (some "Class") [],
    .mk "x3" (some "X.Y.Z") (some "Class") []]⟩

/-- The writer output after nesting `c3ns`. -/
def c3out : List String :=
  write_toc_lines [(nestNs c3ns).getD c3ns]

/-- An item whose `name:` field line appears twice at indentation 4. -/
def c4text : String :=
  "- uid: N\n  - uid: a\n    name: first\n    name: second"

def c4res : List Namespace :=
  [⟨"N", none, none, [.mk "a" (some "second") none []]⟩]

/-- A namespace with a dot-free item and an orphan dotted item (C7 witness). -/
def c7ns : Namespace :=
  ⟨"W", some "W", some "Namespace",
   [.mk "q1" (some "Solo") (some "Class") [],
    .mk "q2" (some "Orphan.Kid") (some "Class") []]⟩

/-- Input forest for the C8 witness. -/
def c8nss : List Namespace :=
  [⟨"K", some "K", some "Namespace",
    [.mk "k1" (some "P") (some "Class") [],
     .mk "k2" (some "P.Q") (some "Class") [],
     .mk "k3" (some "R") (some "Struct") []]⟩]

/-- What the nester produces on `c8nss`. -/
def c8out : List Namespace :=
  [⟨"K", some "K", some "Namespace",
    [.mk "k1" (some "P") (some "Class") [.mk "k2" (some "Q") (some "Class") []],
     .mk "k3" (some "R") (some "Struct") []]⟩]

/-- The spec's end-to-end example namespace (C3 witness input). -/
def c3wns : Namespace :=
  ⟨"E", some "E", some "Namespace",
   [.mk "a" (some "Widget") (some "Class") [],
    .mk "b" (some "Widget.Inner") (some "Class") []]⟩

/-- What the nester produces on `c3wns`. -/
def c3wout : Namespace :=
  ⟨"E", some "E", some "Namespace",
   [.mk "a" (some "Widget") (some "Class") [.mk "b" (some "Inner") (some "Class") []]]⟩

/-- A forest containing an item whose display name was never set (C10). -/
def c10nss : List Namespace :=
  [⟨"N", none, none, [.mk "a" none none []]⟩]

/-! ## Lemmas about the string primitives -/

/-- The fuel argument of `removeAllF` is irrelevant once it covers the list. -/
theorem removeAllF_fuel (pat : List Char) :
    ∀ f₁ f₂ l, l.length ≤ f₁ → l.length ≤ f₂ →
      removeAllF pat f₁ l = removeAllF pat f₂ l
  | f₁, f₂, [], _, _ => by cases f₁ <;> cases f₂ <;> rfl
  | f₁ + 1, f₂ + 1, c :: rest, h₁, h₂ => by
    have hb₁ : rest.length ≤ f₁ := by
      simp only [List.length_cons] at h₁; omega
    have hb₂ : rest.length ≤ f₂ := by
      simp only [List.length_cons] at h₂; omega
    simp only [removeAllF]
    by_cases hp : pat.isPrefixOf (c :: rest) = true
    · simp only [hp, if_true]
      exact removeAllF_fuel pat f₁ f₂ _
        (by simp only [List.length_drop]; omega)
        (by simp only [List.length_drop]; omega)
    · simp only [hp, Bool.false_eq_true, if_false]
      rw [removeAllF_fuel pat f₁ f₂ rest hb₁ hb₂]

theorem removeAll_nil (pat : List Char) : removeAll pat [] = [] := rfl

theorem removeAll_cons_pos (pat : List Char) (c : Char) (rest : List Char)
    (h : pat.isPrefixOf (c :: rest) = true) :
    removeAll pat (c :: rest) = removeAll pat (rest.drop (pat.length - 1)) := by
  simp only [removeAll, List.length_cons, removeAllF, h, if_true]
  exact removeAllF_fuel pat _ _ _ (by simp only [List.length_drop]; omega) le_rfl

theorem removeAll_cons_neg (pat : List Char) (c : Char) (rest : List Char)
    (h : ¬ pat.isPrefixOf (c :: rest) = true) :
    removeAll pat (c :: rest) = c :: removeAll pat rest := by
  simp only [removeAll, List.length_cons, removeAllF, h, Bool.false_eq_true, if_false]

/-! ## String and list helper lemmas -/

theorem str_ext {x y : String} (h : x.data = y.data) : x = y := by
  cases x; cases y
  exact congrArg String.mk h

theorem str_data_append (x y : String) : (x ++ y).data = x.data ++ y.data := rfl

theorem str_append_assoc (x y z : String) : (x ++ y) ++ z = x ++ (y ++ z) := by
  apply str_ext
  simp [str_data_append, List.append_assoc]

theorem str_ne_append_right {s t : String} (ht : t.data ≠ []) : s ≠ s ++ t := by
  intro h
  have hd := congrArg String.data h
  rw [str_data_append] at hd
  have hl := congrArg List.length hd
  simp only [List.length_append] at hl
  exact ht (List.length_eq_zero.mp (by omega))

/-- `a ≠ a ++ "." ++ b`: a name is never its own dotted extension. -/
theorem str_ne_dot_extend (a b : String) : a ≠ a ++ "." ++ b := by
  rw [str_append_assoc]
  exact str_ne_append_right (by simp [str_data_append])

/-- Two dotted extensions are still distinct from the base name. -/
theorem str_ne_dot_extend₂ (a b c : String) : a ≠ a ++ "." ++ b ++ "." ++ c := by
  rw [str_append_assoc, str_append_assoc, str_append_assoc]
  exact str_ne_append_right (by simp [str_data_append])

theorem takeWhile_append_all {α} (p : α → Bool) (l₁ l₂ : List α)
    (h : ∀ x ∈ l₁, p x = true) :
    (l₁ ++ l₂).takeWhile p = l₁ ++ l₂.takeWhile p := by
  induction l₁ with
  | nil => simp
  | cons a l ih =>
    have ha : p a = true := h a (by simp)
    simp only [List.cons_append, List.takeWhile_cons, ha, if_true]
    rw [ih (fun x hx => h x (by simp [hx]))]

theorem dropWhile_append_all {α} (p : α → Bool) (l₁ l₂ : List α)
    (h : ∀ x ∈ l₁, p x = true) :
    (l₁ ++ l₂).dropWhile p = l₂.dropWhile p := by
  induction l₁ with
  | nil => simp
  | cons a l ih =>
    have ha : p a = true := h a (by simp)
    simp only [List.cons_append, List.dropWhile_cons, ha, if_true]
    exact ih (fun x hx => h x (by simp [hx]))

/-! ## Lemmas about `rsplit` -/

theorem data_dot_concat (p c : String) :
    (p ++ "." ++ c).data = (p.data ++ ['.']) ++ c.data := rfl

theorem dot_mem_concat (p c : String) : '.' ∈ (p ++ "." ++ c).data := by
  rw [data_dot_concat]
  simp

theorem rsplitChild_concat (p c : String) (hc : '.' ∉ c.data) :
    rsplitChild (p ++ "." ++ c) = c := by
  apply str_ext
  simp only [rsplitChild, data_dot_concat, List.reverse_append, List.reverse_singleton,
    List.singleton_append]
  rw [takeWhile_append_all _ _ _ (fun x hx => by
    simp only [List.mem_reverse] at hx
    simp only [bne_iff_ne, ne_eq]
    intro hxdot
    exact hc (hxdot ▸ hx))]
  simp [List.takeWhile_cons]

theorem rsplitParent_concat (p c : String) (hc : '.' ∉ c.data) :
    rsplitParent (p ++ "." ++ c) = p := by
  apply str_ext
  simp only [rsplitParent, data_dot_concat, List.reverse_append, List.reverse_singleton,
    List.singleton_append]
  rw [dropWhile_append_all _ _ _ (fun x hx => by
    simp only [List.mem_reverse] at hx
    simp only [bne_iff_ne, ne_eq]
    intro hxdot
    exact hc (hxdot ▸ hx))]
  simp [List.dropWhile_cons]

/-! ## Prefix and field-extraction lemmas -/

theorem mk_data (s : String) : (⟨s.data⟩ : String) = s := rfl

theorem isPrefixOf_ex : ∀ {p l : List Char}, p.isPrefixOf l = true → ∃ r, l = p ++ r
  | [], l, _ => ⟨l, rfl⟩
  | a :: as, [], h => by simp [List.isPrefixOf] at h
  | a :: as, b :: bs, h => by
    simp only [List.isPrefixOf, Bool.and_eq_true] at h
    obtain ⟨hab, h'⟩ := h
    obtain ⟨r, rfl⟩ := isPrefixOf_ex h'
    exact ⟨r, by rw [eq_of_beq hab]; rfl⟩

theorem isPrefixOf_self_append : ∀ (l r : List Char), l.isPrefixOf (l ++ r) = true
  | [], _ => by simp [List.isPrefixOf]
  | a :: as, r => by
    simp only [List.cons_append, List.isPrefixOf, Bool.and_eq_true]
    exact ⟨by simp, isPrefixOf_self_append as r⟩

theorem isPrefixOf_refl (l : List Char) : l.isPrefixOf l = true := by
  have := isPrefixOf_self_append l []
  rwa [List.append_nil] at this

theorem strStarts_data_ex {s p : String} (h : strStarts s p = true) :
    ∃ r, s.data = p.data ++ r :=
  isPrefixOf_ex h

theorem starts_disjoint {s p q : String} {c d : Char} {pt qt : List Char}
    (hp : p.data = c :: pt) (hq : q.data = d :: qt) (hne : d ≠ c)
    (h : strStarts s p = true) : strStarts s q = false := by
  obtain ⟨r, hr⟩ := strStarts_data_ex h
  unfold strStarts
  rw [hq, hr, hp]
  simp only [List.cons_append, List.isPrefixOf]
  have hdc : (d == c) = false := beq_eq_false_iff_ne.mpr hne
  rw [hdc, Bool.false_and]

theorem starts_ne {s p q : String} {c d : Char} {pt qt : List Char}
    (hp : p.data = c :: pt) (hq : q.data = d :: qt) (hne : c ≠ d)
    (h : strStarts s p = true) : ¬ s = q := by
  intro he
  obtain ⟨r, hr⟩ := strStarts_data_ex h
  rw [he, hq, hp] at hr
  simp only [List.cons_append, List.cons.injEq] at hr
  exact hne hr.1.symm

theorem starts_ne_empty {s p : String} {c : Char} {pt : List Char}
    (hp : p.data = c :: pt) (h : strStarts s p = true) : ¬ s = "" := by
  intro he
  obtain ⟨r, hr⟩ := strStarts_data_ex h
  rw [he, hp] at hr
  cases hr

theorem removeAll_noOccur (pat : List Char) :
    ∀ l, occurs pat l = false → removeAll pat l = l
  | [], _ => rfl
  | c :: rest, h => by
    simp only [occurs, Bool.or_eq_false_iff] at h
    rw [removeAll_cons_neg pat c rest (by rw [h.1]; exact Bool.false_ne_true)]
    rw [removeAll_noOccur pat rest h.2]

theorem removeAll_self_append (c : Char) (pt rest : List Char) :
    removeAll (c :: pt) ((c :: pt) ++ rest) = removeAll (c :: pt) rest := by
  rw [show (c :: pt) ++ rest = c :: (pt ++ rest) from rfl]
  rw [removeAll_cons_pos _ _ _ (by
    rw [show c :: (pt ++ rest) = (c :: pt) ++ rest from rfl]
    exact isPrefixOf_self_append _ _)]
  simp only [List.length_cons, Nat.add_sub_cancel]
  rw [List.drop_left]

theorem dropWhile_fix_head {α} {p : α → Bool} {a : α} {l : List α}
    (h : List.dropWhile p (a :: l) = a :: l) : p a = false := by
  have h0 := List.dropWhile_eq_self_iff.mp h (by simp)
  simpa using h0

theorem dropEndWS_append_ws (x : List Char) : dropEndWS (x ++ [' ']) = dropEndWS x := by
  simp only [dropEndWS, List.reverse_append, List.reverse_cons, List.reverse_nil,
    List.nil_append, List.singleton_append, List.dropWhile_cons,
    show isPyWS ' ' = true from rfl, if_true]

/-- Computing `strip`, the indentation, and the extracted field value of a
writer-emitted field line `spaces ++ pat ++ " " ++ u`. -/
theorem padded_line_facts (k : Nat) (pat u : String) (c : Char) (pt : List Char)
    (hpat : pat.data = c :: pt) (hcws : isPyWS c = false)
    (hpstrip : pyStripL pat.data = pat.data)
    (hu : StrippedVal u) (hocc : occurs pat.data u.data = false) :
    strStarts (pyStrip ⟨List.replicate k ' ' ++ (pat.data ++ ' ' :: u.data)⟩) pat = true ∧
    pyIndent ⟨List.replicate k ' ' ++ (pat.data ++ ' ' :: u.data)⟩ = k ∧
    fieldValue pat (pyStrip ⟨List.replicate k ' ' ++ (pat.data ++ ' ' :: u.data)⟩) = u := by
  have hdrop : (List.replicate k ' ' ++ (pat.data ++ ' ' :: u.data)).dropWhile isPyWS
      = pat.data ++ ' ' :: u.data := by
    rw [dropWhile_append_all _ _ _ (fun x hx => by
      rw [List.eq_of_mem_replicate hx]; rfl)]
    rw [hpat, show (c :: pt) ++ ' ' :: u.data = c :: (pt ++ ' ' :: u.data) from rfl,
      List.dropWhile_cons, if_neg (by rw [hcws]; exact Bool.false_ne_true)]
  have hindent : pyIndent ⟨List.replicate k ' ' ++ (pat.data ++ ' ' :: u.data)⟩ = k := by
    simp only [pyIndent, pyLstrip, hdrop, List.length_append, List.length_replicate,
      List.length_cons]
    omega
  have hdropEndPat : dropEndWS pat.data = pat.data := by
    have h1 : pat.data.dropWhile isPyWS = pat.data := by
      rw [hpat, List.dropWhile_cons, if_neg (by rw [hcws]; exact Bool.false_ne_true)]
    calc dropEndWS pat.data = dropEndWS (pat.data.dropWhile isPyWS) := by rw [h1]
      _ = pyStripL pat.data := rfl
      _ = pat.data := hpstrip
  have hmk : pyStrip ⟨List.replicate k ' ' ++ (pat.data ++ ' ' :: u.data)⟩ =
      ⟨pyStripL (List.replicate k ' ' ++ (pat.data ++ ' ' :: u.data))⟩ := rfl
  by_cases hud : u.data = []
  · have hu0 : u = "" := str_ext (by rw [hud])
    have hstrip : pyStripL (List.replicate k ' ' ++ (pat.data ++ ' ' :: u.data))
        = pat.data := by
      rw [pyStripL, hdrop, hud]
      rw [show pat.data ++ ' ' :: ([] : List Char) = pat.data ++ [' '] from rfl]
      rw [dropEndWS_append_ws, hdropEndPat]
    refine ⟨?_, hindent, ?_⟩
    · rw [hmk, hstrip]
      unfold strStarts
      rw [mk_data]
      exact isPrefixOf_refl pat.data
    · rw [hmk, hstrip]
      unfold fieldValue
      rw [mk_data, hpat, removeAll_cons_pos _ _ _ (isPrefixOf_refl _)]
      simp only [List.length_cons, Nat.add_sub_cancel, List.drop_length, removeAll_nil]
      rw [hu0]
      rfl
  · have hstrip : pyStripL (List.replicate k ' ' ++ (pat.data ++ ' ' :: u.data))
        = pat.data ++ ' ' :: u.data := by
      rw [pyStripL, hdrop]
      unfold dropEndWS
      rw [List.reverse_append, show (' ' :: u.data).reverse = u.data.reverse ++ [' ']
        from by simp]
      cases hrev : u.data.reverse with
      | nil => exact absurd (List.reverse_eq_nil_iff.mp hrev) hud
      | cons e es =>
        have hue : isPyWS e = false := by
          apply dropWhile_fix_head (l := es)
          rw [← hrev]
          exact hu.2
        rw [show (e :: es) ++ [' '] ++ pat.data.reverse
          = e :: (es ++ [' '] ++ pat.data.reverse) from by simp]
        rw [List.dropWhile_cons, if_neg (by rw [hue]; exact Bool.false_ne_true)]
        rw [show e :: (es ++ [' '] ++ pat.data.reverse)
          = ((e :: es) ++ [' ']) ++ pat.data.reverse from by simp]
        rw [← hrev]
        simp
    refine ⟨?_, hindent, ?_⟩
    · rw [hmk, hstrip]
      unfold strStarts
      rw [mk_data]
      exact isPrefixOf_self_append pat.data _
    · rw [hmk, hstrip]
      unfold fieldValue
      rw [mk_data, hpat,
        show (c :: pt) ++ ' ' :: u.data = (c :: pt) ++ (' ' :: u.data) from rfl,
        removeAll_self_append]
      have hcsp : (c == ' ') = false := by
        apply beq_eq_false_iff_ne.mpr
        intro hcc
        rw [hcc] at hcws
        cases hcws
      rw [removeAll_noOccur _ _ (by
        simp only [occurs, Bool.or_eq_false_iff]
        refine ⟨?_, hpat ▸ hocc⟩
        simp only [List.isPrefixOf, hcsp, Bool.false_and])]
      have hv : pyStripL (' ' :: u.data) = u.data := by
        rw [pyStripL, List.dropWhile_cons, if_pos (by rfl), hu.1]
        unfold dropEndWS
        rw [hu.2, List.reverse_reverse]
      rw [hv]

theorem itemKey_uid {x y : Item} (h : itemKey x = itemKey y) : x.uid = y.uid := by
  simpa [itemKey] using congrArg Prod.fst h

theorem itemKey_name {x y : Item} (h : itemKey x = itemKey y) : x.name = y.name := by
  simpa [itemKey] using congrArg (fun q => q.2.1) h

theorem addChild_uid (x ch : Item) : (x.addChild ch).uid = x.uid := by
  cases x; rfl

theorem addChild_name (x ch : Item) : (x.addChild ch).name = x.name := by
  cases x; rfl

theorem addChild_type (x ch : Item) : (x.addChild ch).type = x.type := by
  cases x; rfl

theorem addChild_children (x ch : Item) : (x.addChild ch).children = x.children ++ [ch] := by
  cases x; rfl

theorem childExt_refl (x : Item) : ChildExt x x :=
  ⟨rfl, rfl, rfl, [], by simp⟩

theorem childExt_addChild (x ch : Item) : ChildExt x (x.addChild ch) :=
  ⟨addChild_uid x ch, addChild_name x ch, addChild_type x ch, [ch], addChild_children x ch⟩

theorem childExt_trans {x y z : Item} (h₁ : ChildExt x y) (h₂ : ChildExt y z) : ChildExt x z := by
  obtain ⟨hu₁, hn₁, ht₁, e₁, he₁⟩ := h₁
  obtain ⟨hu₂, hn₂, ht₂, e₂, he₂⟩ := h₂
  exact ⟨hu₂.trans hu₁, hn₂.trans hn₁, ht₂.trans ht₁, e₁ ++ e₂, by
    rw [he₂, he₁, List.append_assoc]⟩

theorem childExt_key {x y : Item} (h : ChildExt x y) : itemKey y = itemKey x := by
  obtain ⟨hu, hn, ht, _, _⟩ := h
  simp [itemKey, hu, hn, ht]

theorem forall₂_childExt_refl : ∀ l : List Item, List.Forall₂ ChildExt l l
  | [] => List.Forall₂.nil
  | x :: xs => List.Forall₂.cons (childExt_refl x) (forall₂_childExt_refl xs)

theorem forall₂_childExt_trans {a b c : List Item}
    (h₁ : List.Forall₂ ChildExt a b) (h₂ : List.Forall₂ ChildExt b c) :
    List.Forall₂ ChildExt a c := by
  induction h₁ generalizing c with
  | nil => cases h₂; exact List.Forall₂.nil
  | cons hxy hrest ih =>
    cases h₂ with
    | cons hyz htail => exact List.Forall₂.cons (childExt_trans hxy hyz) (ih htail)

theorem forall₂_childExt_mem {a b : List Item} (h : List.Forall₂ ChildExt a b) :
    ∀ x ∈ a, ∃ y ∈ b, ChildExt x y := by
  induction h with
  | nil => intro x hx; cases hx
  | cons hxy hrest ih =>
    intro x hx
    rcases List.mem_cons.mp hx with rfl | hx'
    · exact ⟨_, by simp, hxy⟩
    · obtain ⟨y, hy, hxy'⟩ := ih x hx'
      exact ⟨y, by simp [hy], hxy'⟩

theorem forall₂_childExt_keys {a b : List Item} (h : List.Forall₂ ChildExt a b) :
    b.map itemKey = a.map itemKey := by
  induction h with
  | nil => rfl
  | cons hxy _ ih => simp [childExt_key hxy, ih]

theorem exists_name_of_keys_eq {l m : List Item}
    (h : l.map itemKey = m.map itemKey) {q : String}
    (he : ∃ x ∈ l, x.name = some q) : ∃ x ∈ m, x.name = some q := by
  obtain ⟨x, hx, hxn⟩ := he
  have : itemKey x ∈ m.map itemKey := h ▸ List.mem_map_of_mem itemKey hx
  obtain ⟨y, hy, hyk⟩ := List.mem_map.mp this
  exact ⟨y, hy, by rw [itemKey_name hyk.symm] at hxn; exact hxn⟩

/-! ## Branch analysis of `parseLine` -/

/-- What a line whose strip starts with `- uid:` cannot be. -/
theorem uid_line_facts {s : String} (h : strStarts s "- uid:" = true) :
    ¬ s = "" ∧ strStarts s "###" = false ∧ ¬ s = "items:" ∧
    strStarts s "name:" = false ∧ strStarts s "type:" = false :=
  ⟨starts_ne_empty (show ("- uid:").data = '-' :: (" uid:").data from rfl) h,
   starts_disjoint (show ("- uid:").data = '-' :: (" uid:").data from rfl)
     (show ("###").data = '#' :: ("##").data from rfl) (by decide) h,
   starts_ne (show ("- uid:").data = '-' :: (" uid:").data from rfl)
     (show ("items:").data = 'i' :: ("tems:").data from rfl) (by decide) h,
   starts_disjoint (show ("- uid:").data = '-' :: (" uid:").data from rfl)
     (show ("name:").data = 'n' :: ("ame:").data from rfl) (by decide) h,
   starts_disjoint (show ("- uid:").data = '-' :: (" uid:").data from rfl)
     (show ("type:").data = 't' :: ("ype:").data from rfl) (by decide) h⟩

/-- What a line whose strip starts with `name:` cannot be. -/
theorem name_line_facts {s : String} (h : strStarts s "name:" = true) :
    ¬ s = "" ∧ strStarts s "###" = false ∧ ¬ s = "items:" ∧
    strStarts s "- uid:" = false ∧ strStarts s "type:" = false :=
  ⟨starts_ne_empty (show ("name:").data = 'n' :: ("ame:").data from rfl) h,
   starts_disjoint (show ("name:").data = 'n' :: ("ame:").data from rfl)
     (show ("###").data = '#' :: ("##").data from rfl) (by decide) h,
   starts_ne (show ("name:").data = 'n' :: ("ame:").data from rfl)
     (show ("items:").data = 'i' :: ("tems:").data from rfl) (by decide) h,
   starts_disjoint (show ("name:").data = 'n' :: ("ame:").data from rfl)
     (show ("- uid:").data = '-' :: (" uid:").data from rfl) (by decide) h,
   starts_disjoint (show ("name:").data = 'n' :: ("ame:").data from rfl)
     (show ("type:").data = 't' :: ("ype:").data from rfl) (by decide) h⟩

/-- What a line whose strip starts with `type:` cannot be. -/
theorem type_line_facts {s : String} (h : strStarts s "type:" = true) :
    ¬ s = "" ∧ strStarts s "###" = false ∧ ¬ s = "items:" ∧
    strStarts s "- uid:" = false ∧ strStarts s "name:" = false :=
  ⟨starts_ne_empty (show ("type:").data = 't' :: ("ype:").data from rfl) h,
   starts_disjoint (show ("type:").data = 't' :: ("ype:").data from rfl)
     (show ("###").data = '#' :: ("##").data from rfl) (by decide) h,
   starts_ne (show ("type:").data = 't' :: ("ype:").data from rfl)
     (show ("items:").data = 'i' :: ("tems:").data from rfl) (by decide) h,
   starts_disjoint (show ("type:").data = 't' :: ("ype:").data from rfl)
     (show ("- uid:").data = '-' :: (" uid:").data from rfl) (by decide) h,
   starts_disjoint (show ("type:").data = 't' :: ("ype:").data from rfl)
     (show ("name:").data = 'n' :: ("ame:").data from rfl) (by decide) h⟩

/-- A namespace entry line flushes the current namespace and opens a new one. -/
theorem parseLine_nsStart (st : PState) (l : String) (h : isNsStartLine l = true) :
    parseLine st l = some ⟨st.result ++ flushList st.curNs,
      some ⟨fieldValue "- uid:" (pyStrip l), none, none, []⟩, false⟩ := by
  have hh : strStarts (pyStrip l) "- uid:" = true ∧ pyIndent l = 0 := by
    simpa [isNsStartLine, Bool.and_eq_true, beq_iff_eq] using h
  obtain ⟨hs, hi⟩ := hh
  obtain ⟨hne, h3, hni, _, _⟩ := uid_line_facts hs
  simp only [parseLine]
  rw [if_neg (by simp [hne, h3]), if_neg (by simp [hni]), if_pos (by simp [hs, hi])]

/-- An item entry line with a current namespace appends a fresh item. -/
theorem parseLine_itemStart (st : PState) (l : String) (ns : Namespace)
    (h : isItemStartLine l = true) (hc : st.curNs = some ns) :
    parseLine st l = some ⟨st.result,
      some { ns with items := ns.items ++ [.mk (fieldValue "- uid:" (pyStrip l)) none none []] },
      true⟩ := by
  have hh : strStarts (pyStrip l) "- uid:" = true ∧ pyIndent l = 2 := by
    simpa [isItemStartLine, Bool.and_eq_true, beq_iff_eq] using h
  obtain ⟨hs, hi⟩ := hh
  obtain ⟨hne, h3, hni, hnm, hty⟩ := uid_line_facts hs
  simp only [parseLine]
  rw [if_neg (by simp [hne, h3]), if_neg (by simp [hni]), if_neg (by simp [hi]),
    if_neg (by simp [hnm]), if_neg (by simp [hty]), if_neg (by simp [hni]),
    if_pos (by simp [hs, hi]), hc]

/-- An item entry line with no current namespace raises. -/
theorem parseLine_itemStart_none (st : PState) (l : String)
    (h : isItemStartLine l = true) (hc : st.curNs = none) :
    parseLine st l = none := by
  have hh : strStarts (pyStrip l) "- uid:" = true ∧ pyIndent l = 2 := by
    simpa [isItemStartLine, Bool.and_eq_true, beq_iff_eq] using h
  obtain ⟨hs, hi⟩ := hh
  obtain ⟨hne, h3, hni, hnm, hty⟩ := uid_line_facts hs
  simp only [parseLine]
  rw [if_neg (by simp [hne, h3]), if_neg (by simp [hni]), if_neg (by simp [hi]),
    if_neg (by simp [hnm]), if_neg (by simp [hty]), if_neg (by simp [hni]),
    if_pos (by simp [hs, hi]), hc]

/-- A namespace `name:` line sets the name while it is unset. -/
theorem parseLine_nsName (st : PState) (l : String) (ns : Namespace)
    (h : isNsNameLine l = true) (hc : st.curNs = some ns) (hn : ns.name = none) :
    parseLine st l = some ⟨st.result,
      some { ns with name := some (fieldValue "name:" (pyStrip l)) }, st.curItem⟩ := by
  have hh : strStarts (pyStrip l) "name:" = true ∧ pyIndent l = 2 := by
    simpa [isNsNameLine, Bool.and_eq_true, beq_iff_eq] using h
  obtain ⟨hs, hi⟩ := hh
  obtain ⟨hne, h3, hni, hnu, hty⟩ := name_line_facts hs
  simp only [parseLine]
  rw [if_neg (by simp [hne, h3]), if_neg (by simp [hni]), if_neg (by simp [hnu]),
    if_pos (by simp [hs, hi, nsNameNone, hc, hn]), hc]
  rfl

/-- A namespace `type:` line sets the kind tag while it is unset. -/
theorem parseLine_nsType (st : PState) (l : String) (ns : Namespace)
    (h : isNsTypeLine l = true) (hc : st.curNs = some ns) (hn : ns.type = none) :
    parseLine st l = some ⟨st.result,
      some { ns with type := some (fieldValue "type:" (pyStrip l)) }, st.curItem⟩ := by
  have hh : strStarts (pyStrip l) "type:" = true ∧ pyIndent l = 2 := by
    simpa [isNsTypeLine, Bool.and_eq_true, beq_iff_eq] using h
  obtain ⟨hs, hi⟩ := hh
  obtain ⟨hne, h3, hni, hnu, hnm⟩ := type_line_facts hs
  simp only [parseLine]
  rw [if_neg (by simp [hne, h3]), if_neg (by simp [hni]), if_neg (by simp [hnu]),
    if_neg (by simp [hnm]), if_pos (by simp [hs, hi, nsTypeNone, hc, hn]), hc]
  rfl

/-- An item `name:` line overwrites the current item's name unconditionally. -/
theorem parseLine_itemName (st : PState) (l : String)
    (h : isItemNameLine l = true) (hcur : st.curItem = true) :
    parseLine st l = some ⟨st.result,
      st.curNs.map (fun ns =>
        { ns with items := modLast (Item.setName (fieldValue "name:" (pyStrip l))) ns.items }),
      st.curItem⟩ := by
  have hh : strStarts (pyStrip l) "name:" = true ∧ pyIndent l = 4 := by
    simpa [isItemNameLine, Bool.and_eq_true, beq_iff_eq] using h
  obtain ⟨hs, hi⟩ := hh
  obtain ⟨hne, h3, hni, hnu, hty⟩ := name_line_facts hs
  simp only [parseLine]
  rw [if_neg (by simp [hne, h3]), if_neg (by simp [hni]), if_neg (by simp [hi]),
    if_neg (by simp [hi]), if_neg (by simp [hty]), if_neg (by simp [hni]),
    if_neg (by simp [hi]), if_pos (by simp [hs, hi, hcur])]

/-- An item `type:` line overwrites the current item's kind unconditionally. -/
theorem parseLine_itemType (st : PState) (l : String)
    (h : isItemTypeLine l = true) (hcur : st.curItem = true) :
    parseLine st l = some ⟨st.result,
      st.curNs.map (fun ns =>
        { ns with items := modLast (Item.setType (fieldValue "type:" (pyStrip l))) ns.items }),
      st.curItem⟩ := by
  have hh : strStarts (pyStrip l) "type:" = true ∧ pyIndent l = 4 := by
    simpa [isItemTypeLine, Bool.and_eq_true, beq_iff_eq] using h
  obtain ⟨hs, hi⟩ := hh
  obtain ⟨hne, h3, hni, hnu, hnm⟩ := type_line_facts hs
  simp only [parseLine]
  rw [if_neg (by simp [hne, h3]), if_neg (by simp [hni]), if_neg (by simp [hi]),
    if_neg (by simp [hnm]), if_neg (by simp [hi]), if_neg (by simp [hni]),
    if_neg (by simp [hi]), if_neg (by simp [hnm]), if_pos (by simp [hs, hi, hcur])]

/-- Any line that is not a namespace entry line leaves the flushed result and
the presence of a current namespace unchanged. -/
theorem parseLine_preserve {st st' : PState} {l : String}
    (hns : isNsStartLine l = false) (hp : parseLine st l = some st') :
    st'.result = st.result ∧ st'.curNs.isSome = st.curNs.isSome := by
  simp only [parseLine] at hp
  split_ifs at hp with h1 h2 h3 h4 h5 h6 h7 h8 h9
  · obtain rfl := Option.some.inj hp; exact ⟨rfl, rfl⟩
  · obtain rfl := Option.some.inj hp; exact ⟨rfl, rfl⟩
  · exact absurd h3 (by simpa [isNsStartLine, Bool.and_eq_true, beq_iff_eq] using hns)
  · obtain rfl := Option.some.inj hp
    exact ⟨rfl, by simp⟩
  · obtain rfl := Option.some.inj hp
    exact ⟨rfl, by simp⟩
  · obtain rfl := Option.some.inj hp; exact ⟨rfl, rfl⟩
  · cases hc : st.curNs with
    | none => rw [hc] at hp; cases hp
    | some ns =>
      rw [hc] at hp
      obtain rfl := Option.some.inj hp
      exact ⟨rfl, by simp [hc]⟩
  · obtain rfl := Option.some.inj hp
    exact ⟨rfl, by simp⟩
  · obtain rfl := Option.some.inj hp
    exact ⟨rfl, by simp⟩
  · obtain rfl := Option.some.inj hp; exact ⟨rfl, rfl⟩

/-- The only raising line shape is an item entry line. -/
theorem parseLine_total_not_item {st : PState} {l : String}
    (h : isItemStartLine l = false) : (parseLine st l).isSome = true := by
  simp only [parseLine]
  split_ifs with h1 h2 h3 h4 h5 h6 h7 h8 h9
  · rfl
  · rfl
  · rfl
  · rfl
  · rfl
  · rfl
  · exact absurd h7 (by simpa [isItemStartLine, Bool.and_eq_true, beq_iff_eq] using h)
  · rfl
  · rfl
  · rfl

/-- With a current namespace present no line can raise. -/
theorem parseLine_total_some {st : PState} {l : String} {ns : Namespace}
    (hc : st.curNs = some ns) : (parseLine st l).isSome = true := by
  simp only [parseLine]
  split_ifs
  · rfl
  · rfl
  · rfl
  · rfl
  · rfl
  · rfl
  · rw [hc]; rfl
  · rfl
  · rfl
  · rfl

/-- Once a current namespace exists, it never disappears. -/
theorem parseLine_some_mono {st st' : PState} {l : String} {ns : Namespace}
    (hc : st.curNs = some ns) (hp : parseLine st l = some st') :
    st'.curNs.isSome = true := by
  simp only [parseLine] at hp
  split_ifs at hp
  · obtain rfl := Option.some.inj hp; simp [hc]
  · obtain rfl := Option.some.inj hp; simp [hc]
  · obtain rfl := Option.some.inj hp; rfl
  · obtain rfl := Option.some.inj hp; simp [hc]
  · obtain rfl := Option.some.inj hp; simp [hc]
  · obtain rfl := Option.some.inj hp; simp [hc]
  · rw [hc] at hp
    obtain rfl := Option.some.inj hp
    rfl
  · obtain rfl := Option.some.inj hp; simp [hc]
  · obtain rfl := Option.some.inj hp; simp [hc]
  · obtain rfl := Option.some.inj hp; simp [hc]

theorem flushList_length :
    ∀ o : Option Namespace, (flushList o).length = (if o.isSome = true then 1 else 0)
  | none => rfl
  | some _ => rfl

/-! ## Lemmas about `attachToFirst` -/

theorem attachToFirst_pointwise (p : String) (ch : Item) :
    ∀ l : List Item, List.Forall₂ ChildExt l (attachToFirst p ch l).1
  | [] => List.Forall₂.nil
  | x :: xs => by
    simp only [attachToFirst]
    by_cases hx : x.name = some p
    · simp only [hx, if_pos rfl]
      exact List.Forall₂.cons (childExt_addChild x ch) (forall₂_childExt_refl xs)
    · simp only [if_neg hx]
      exact List.Forall₂.cons (childExt_refl x) (attachToFirst_pointwise p ch xs)

theorem attachToFirst_found_mem (p : String) (ch : Item) :
    ∀ l : List Item, (∃ x ∈ l, x.name = some p) →
      ∃ y ∈ (attachToFirst p ch l).1, y.name = some p ∧ ch ∈ y.children
  | [], h => by simp at h
  | x :: xs, h => by
    simp only [attachToFirst]
    by_cases hx : x.name = some p
    · refine ⟨x.addChild ch, by simp [hx], ?_, ?_⟩
      · rw [addChild_name]; exact hx
      · rw [addChild_children]; simp
    · simp only [if_neg hx]
      have hxs : ∃ z ∈ xs, z.name = some p := by
        obtain ⟨z, hz, hzn⟩ := h
        rcases List.mem_cons.mp hz with rfl | hz'
        · exact absurd hzn hx
        · exact ⟨z, hz', hzn⟩
      obtain ⟨y, hy, hyp⟩ := attachToFirst_found_mem p ch xs hxs
      exact ⟨y, by simp [hy], hyp⟩

theorem attachToFirst_found_true (p : String) (ch : Item) :
    ∀ l : List Item, (∃ x ∈ l, x.name = some p) → (attachToFirst p ch l).2 = true
  | [], h => by simp at h
  | x :: xs, h => by
    simp only [attachToFirst]
    by_cases hx : x.name = some p
    · simp [hx]
    · simp only [if_neg hx]
      have hxs : ∃ z ∈ xs, z.name = some p := by
        obtain ⟨z, hz, hzn⟩ := h
        rcases List.mem_cons.mp hz with rfl | hz'
        · exact absurd hzn hx
        · exact ⟨z, hz', hzn⟩
      exact attachToFirst_found_true p ch xs hxs

theorem attachToFirst_true_found (p : String) (ch : Item) :
    ∀ l : List Item, (attachToFirst p ch l).2 = true → ∃ x ∈ l, x.name = some p
  | [], h => by simp [attachToFirst] at h
  | x :: xs, h => by
    simp only [attachToFirst] at h
    by_cases hx : x.name = some p
    · exact ⟨x, by simp, hx⟩
    · simp only [if_neg hx] at h
      obtain ⟨z, hz, hzn⟩ := attachToFirst_true_found p ch xs h
      exact ⟨z, by simp [hz], hzn⟩

/-! ## Lemmas about the nesting pass -/

theorem contains_eq_false_of_not_mem {α} [BEq α] [LawfulBEq α] {l : List α} {a : α}
    (h : a ∉ l) : l.contains a = false := by
  by_cases hb : l.contains a = true
  · obtain ⟨x, hx, hbeq⟩ := List.contains_iff_exists_mem_beq.mp hb
    exact absurd (by rw [eq_of_beq hbeq]; exact hx) h
  · exact Bool.eq_false_iff.mpr hb

theorem nestStep_name_none {acc : List Item × List String} {it : Item}
    (h : it.name = none) : nestStep acc it = none := by
  simp [nestStep, h]

/-- Every successful step either leaves the accumulator unchanged or attaches
one child and records the item's full name as nested. -/
theorem nestStep_some_cases {acc acc' : List Item × List String} {it : Item}
    (h : nestStep acc it = some acc') :
    acc' = acc ∨
    ∃ n, it.name = some n ∧ '.' ∈ n.data ∧
      (attachToFirst (rsplitParent n) (childOf it (rsplitChild n)) acc.1).2 = true ∧
      acc' = ((attachToFirst (rsplitParent n) (childOf it (rsplitChild n)) acc.1).1,
              acc.2 ++ [n]) := by
  cases hn : it.name with
  | none => rw [nestStep_name_none hn] at h; cases h
  | some n =>
    simp only [nestStep, hn] at h
    by_cases hd : '.' ∈ n.data
    · rw [if_pos hd] at h
      by_cases hf : (attachToFirst (rsplitParent n) (childOf it (rsplitChild n)) acc.1).2 = true
      · rw [if_pos hf] at h
        exact Or.inr ⟨n, rfl, hd, hf, (Option.some.inj h).symm⟩
      · rw [if_neg hf] at h
        exact Or.inl (Option.some.inj h).symm
    · rw [if_neg hd] at h
      exact Or.inl (Option.some.inj h).symm

theorem nestStep_isSome {acc : List Item × List String} {it : Item} {n : String}
    (h : it.name = some n) : (nestStep acc it).isSome = true := by
  simp only [nestStep, h]
  by_cases hd : '.' ∈ n.data
  · rw [if_pos hd]
    by_cases hf : (attachToFirst (rsplitParent n) (childOf it (rsplitChild n)) acc.1).2 = true
    · rw [if_pos hf]; rfl
    · rw [if_neg hf]; rfl
  · rw [if_neg hd]; rfl

theorem nestStep_pointwise {acc acc' : List Item × List String} {it : Item}
    (h : nestStep acc it = some acc') : List.Forall₂ ChildExt acc.1 acc'.1 := by
  rcases nestStep_some_cases h with rfl | ⟨n, _, _, _, rfl⟩
  · exact forall₂_childExt_refl _
  · exact attachToFirst_pointwise _ _ _

theorem nestStep_nested {acc acc' : List Item × List String} {it : Item}
    (h : nestStep acc it = some acc') :
    ∀ m ∈ acc'.2, m ∈ acc.2 ∨
      ('.' ∈ m.data ∧ ∃ x ∈ acc.1, x.name = some (rsplitParent m)) := by
  rcases nestStep_some_cases h with rfl | ⟨n, _, hd, hf, rfl⟩
  · exact fun m hm => Or.inl hm
  · intro m hm
    rcases List.mem_append.mp hm with hm' | hm'
    · exact Or.inl hm'
    · obtain rfl : m = n := by simpa using hm'
      exact Or.inr ⟨hd, attachToFirst_true_found _ _ _ hf⟩

theorem nestPassGo_pointwise :
    ∀ (l : List Item) (acc res : List Item × List String),
      nestPassGo acc l = some res → List.Forall₂ ChildExt acc.1 res.1
  | [], acc, res, h => by
    obtain rfl : acc = res := Option.some.inj h
    exact forall₂_childExt_refl _
  | it :: rest, acc, res, h => by
    simp only [nestPassGo] at h
    cases hs : nestStep acc it with
    | none => rw [hs] at h; cases h
    | some acc' =>
      rw [hs] at h
      exact forall₂_childExt_trans (nestStep_pointwise hs)
        (nestPassGo_pointwise rest acc' res h)

theorem nestPassGo_keys {l : List Item} {acc res : List Item × List String}
    (h : nestPassGo acc l = some res) : res.1.map itemKey = acc.1.map itemKey :=
  forall₂_childExt_keys (nestPassGo_pointwise l acc res h)

theorem nestPassGo_nested (items : List Item) :
    ∀ (l : List Item) (acc res : List Item × List String),
      nestPassGo acc l = some res →
      acc.1.map itemKey = items.map itemKey →
      (∀ m ∈ acc.2, NestedOk items m) →
      ∀ m ∈ res.2, NestedOk items m
  | [], acc, res, h, _, hacc => by
    obtain rfl : acc = res := Option.some.inj h
    exact hacc
  | it :: rest, acc, res, h, hkeys, hacc => by
    simp only [nestPassGo] at h
    cases hs : nestStep acc it with
    | none => rw [hs] at h; cases h
    | some acc' =>
      rw [hs] at h
      have hkeys' : acc'.1.map itemKey = items.map itemKey := by
        rw [forall₂_childExt_keys (nestStep_pointwise hs), hkeys]
      have hacc' : ∀ m ∈ acc'.2, NestedOk items m := by
        intro m hm
        rcases nestStep_nested hs m hm with hold | ⟨hd, hex⟩
        · exact hacc m hold
        · exact ⟨hd, exists_name_of_keys_eq hkeys hex⟩
      exact nestPassGo_nested items rest acc' res h hkeys' hacc'

theorem nestPassGo_none :
    ∀ (l : List Item) (acc : List Item × List String),
      (∃ it ∈ l, it.name = none) → nestPassGo acc l = none
  | [], _, h => by simp at h
  | it :: rest, acc, h => by
    simp only [nestPassGo]
    cases hn : it.name with
    | none => rw [nestStep_name_none hn]
    | some n =>
      have hrest : ∃ z ∈ rest, z.name = none := by
        obtain ⟨z, hz, hzn⟩ := h
        rcases List.mem_cons.mp hz with rfl | hz'
        · rw [hn] at hzn; cases hzn
        · exact ⟨z, hz', hzn⟩
      cases hs : nestStep acc it with
      | none => rfl
      | some acc' => exact nestPassGo_none rest acc' hrest

/-- Everything `nestNs` guarantees about a successful run. -/
theorem nestNs_char {ns ns' : Namespace} (h : nestNs ns = some ns') :
    ns'.uid = ns.uid ∧ ns'.name = ns.name ∧ ns'.type = ns.type ∧
    ∃ cur nested, nestPassGo (ns.items, []) ns.items = some (cur, nested) ∧
      ns'.items = cur.filter (fun it => !(nameInSet nested it.name)) ∧
      cur.map itemKey = ns.items.map itemKey ∧
      List.Forall₂ ChildExt ns.items cur ∧
      (∀ m ∈ nested, NestedOk ns.items m) := by
  unfold nestNs at h
  by_cases he : ns.items.isEmpty = true
  · rw [if_pos he] at h
    obtain rfl : ns = ns' := Option.some.inj h
    have hnil : ns.items = [] := by
      cases hl : ns.items with
      | nil => rfl
      | cons a l => rw [hl] at he; cases he
    refine ⟨rfl, rfl, rfl, [], [], ?_, ?_, ?_, ?_, fun m hm => absurd hm (List.not_mem_nil m)⟩
    · rw [hnil]; rfl
    · rw [hnil]; rfl
    · rw [hnil]
    · rw [hnil]; exact List.Forall₂.nil
  · rw [if_neg he] at h
    cases hp : nestPassGo (ns.items, []) ns.items with
    | none => rw [hp] at h; cases h
    | some r =>
      rw [hp] at h
      obtain ⟨cur, nested⟩ := r
      obtain rfl : { ns with items := cur.filter (fun it => !(nameInSet nested it.name)) } = ns' :=
        Option.some.inj h
      refine ⟨rfl, rfl, rfl, cur, nested, rfl, rfl, ?_, ?_, ?_⟩
      · exact nestPassGo_keys hp
      · exact nestPassGo_pointwise _ _ _ hp
      · exact nestPassGo_nested ns.items ns.items (ns.items, []) (cur, nested) hp rfl
          (fun m hm => absurd hm (List.not_mem_nil m))

theorem nestNs_fields_sub {ns ns' : Namespace} (h : nestNs ns = some ns') :
    ns'.uid = ns.uid ∧ ns'.name = ns.name ∧ ns'.type = ns.type ∧
    List.Sublist (ns'.items.map itemKey) (ns.items.map itemKey) := by
  obtain ⟨hu, hm, ht, cur, nested, _, hitems, hkeys, _, _⟩ := nestNs_char h
  refine ⟨hu, hm, ht, ?_⟩
  rw [hitems, ← hkeys]
  exact List.Sublist.map itemKey (List.filter_sublist cur)

theorem contains_eq_true_of_mem {α} [BEq α] [LawfulBEq α] {l : List α} {a : α}
    (h : a ∈ l) : l.contains a = true :=
  List.contains_iff_exists_mem_beq.mpr ⟨a, h, by simp⟩

theorem nestPassGo_append :
    ∀ (a b : List Item) (acc : List Item × List String),
      nestPassGo acc (a ++ b) = (nestPassGo acc a).bind (fun acc' => nestPassGo acc' b)
  | [], b, acc => rfl
  | it :: rest, b, acc => by
    simp only [List.cons_append, nestPassGo]
    cases hs : nestStep acc it with
    | none => rfl
    | some acc' => exact nestPassGo_append rest b acc'

theorem nestPassGo_nested_mono :
    ∀ (l : List Item) (acc res : List Item × List String),
      nestPassGo acc l = some res → ∀ m ∈ acc.2, m ∈ res.2
  | [], acc, res, h => by
    obtain rfl : acc = res := Option.some.inj h
    exact fun m hm => hm
  | it :: rest, acc, res, h => by
    simp only [nestPassGo] at h
    cases hs : nestStep acc it with
    | none => rw [hs] at h; cases h
    | some acc' =>
      rw [hs] at h
      intro m hm
      rcases nestStep_some_cases hs with rfl | ⟨n, _, _, _, rfl⟩
      · exact nestPassGo_nested_mono rest acc' res h m hm
      · exact nestPassGo_nested_mono rest _ res h m (List.mem_append_left _ hm)

/-! ## Writer infix lemmas -/

theorem isInfix_append_left {α} (y l : List α) : List.IsInfix l (y ++ l) :=
  ⟨y, [], by simp⟩

theorem isInfix_append_right {α} (l y : List α) : List.IsInfix l (l ++ y) :=
  ⟨[], y, by simp⟩

theorem write_children_within (ind : Nat) :
    ∀ (l : List Item) (it : Item), it ∈ l →
      List.IsInfix (write_item it ind) (write_children l ind)
  | [], it, h => absurd h (List.not_mem_nil it)
  | a :: rest, it, h => by
    rcases List.mem_cons.mp h with rfl | h'
    · simp only [write_children]
      exact isInfix_append_right _ _
    · simp only [write_children]
      exact (write_children_within ind rest it h').trans (isInfix_append_left _ _)

theorem write_item_child_within {it ch : Item} (h : ch ∈ it.children) (ind : Nat) :
    List.IsInfix (write_item ch (ind + 1)) (write_item it ind) := by
  cases it with
  | mk u n t cs =>
    simp only [Item.children] at h
    have hne : ¬ cs.isEmpty = true := by
      cases cs with
      | nil => cases h
      | cons b l => simp
    simp only [write_item, if_neg hne]
    have hsplit :
        (pfx ind ++ "- uid: " ++ u) :: (pfx ind ++ "  name: " ++ pyShow n) ::
        (pfx ind ++ "  type: " ++ pyShow t) ::
        (pfx ind ++ "  items:") :: write_children cs (ind + 1) =
        [pfx ind ++ "- uid: " ++ u, pfx ind ++ "  name: " ++ pyShow n,
         pfx ind ++ "  type: " ++ pyShow t, pfx ind ++ "  items:"] ++
        write_children cs (ind + 1) := rfl
    rw [hsplit]
    exact (write_children_within (ind + 1) cs ch h).trans (isInfix_append_left _ _)

theorem nsLines_infix_flatMap {ns : Namespace} :
    ∀ nss : List Namespace, ns ∈ nss → List.IsInfix (nsLines ns) (nss.flatMap nsLines)
  | [], h => absurd h (List.not_mem_nil ns)
  | a :: rest, h => by
    rcases List.mem_cons.mp h with rfl | h'
    · rw [List.flatMap_cons]
      exact isInfix_append_right _ _
    · rw [List.flatMap_cons]
      exact (nsLines_infix_flatMap rest h').trans (isInfix_append_left _ _)

theorem ns_mem_write_toc_lines {ns : Namespace} {nss : List Namespace} (h : ns ∈ nss) :
    List.IsInfix (nsLines ns) (write_toc_lines nss) := by
  have hsplit : write_toc_lines nss =
      ["### YamlMime:TableOfContent", "items:"] ++ nss.flatMap nsLines := rfl
  rw [hsplit]
  exact (nsLines_infix_flatMap nss h).trans (isInfix_append_left _ _)

theorem toplevel_item_lines_within {it : Item} {ns : Namespace} (h : it ∈ ns.items) :
    List.IsInfix (write_item it 1) (nsLines ns) := by
  have hne : ¬ ns.items.isEmpty = true := by
    cases hl : ns.items with
    | nil => rw [hl] at h; cases h
    | cons b l => simp
  simp only [nsLines, if_neg hne]
  have hsplit :
      ("- uid: " ++ ns.uid) :: ("  name: " ++ pyShow ns.name) ::
      ("  type: " ++ pyShow ns.type) :: ("  items:") :: write_children ns.items 1 =
      ["- uid: " ++ ns.uid, "  name: " ++ pyShow ns.name,
       "  type: " ++ pyShow ns.type, "  items:"] ++ write_children ns.items 1 := rfl
  rw [hsplit]
  exact (write_children_within 1 ns.items it h).trans (isInfix_append_left _ _)

/-! ## Claims C7, C8, C10 -/

/-- C10: the nester is total only when every item has a display name: a
namespace containing an item whose name was never set makes `nest_items`
raise (`'.' in None`) instead of skipping the item. -/
theorem c10_none_name_raises :
    ∀ (nss : List Namespace) (ns : Namespace), ns ∈ nss →
      (∃ it ∈ ns.items, it.name = none) → nest_items nss = none
  | [], ns, hmem, _ => absurd hmem (List.not_mem_nil ns)
  | a :: rest, ns, hmem, h => by
    simp only [nest_items]
    rcases List.mem_cons.mp hmem with rfl | hmem'
    · have hne : ¬ ns.items.isEmpty = true := by
        obtain ⟨it, hit, _⟩ := h
        cases hl : ns.items with
        | nil => rw [hl] at hit; cases hit
        | cons b l => simp
      have hns : nestNs ns = none := by
        unfold nestNs
        rw [if_neg hne, nestPassGo_none ns.items (ns.items, []) h]
      rw [hns]
    · cases ha : nestNs a with
      | none => rfl
      | some a' =>
        rw [c10_none_name_raises rest ns hmem' h]

/-- C10 witness: the parser produces exactly such an item record from an item
entry line with no following name line, and the nester then raises. -/
theorem c10_witness :
    parse_toc "- uid: N\n  - uid: a" = some c10nss ∧ nest_items c10nss = none :=
  ⟨by decide,
   c10_none_name_raises c10nss ⟨"N", none, none, [.mk "a" none none []]⟩
     (by decide) ⟨.mk "a" none none [], by decide, rfl⟩⟩

/-- C7: every item that is not re-parented stays at the top level with its
original display name, identifier and kind tag: this covers items whose name
has no dot, and dotted items whose parent name matches no item of the same
namespace. -/
theorem c7_unparented_items_stay (ns ns' : Namespace) (y : Item) (n : String)
    (hnest : nestNs ns = some ns') (hy : y ∈ ns.items) (hyn : y.name = some n)
    (hside : '.' ∉ n.data ∨
      ('.' ∈ n.data ∧ ∀ x ∈ ns.items, x.name ≠ some (rsplitParent n))) :
    ∃ z ∈ ns'.items, z.uid = y.uid ∧ z.name = some n ∧ z.type = y.type := by
  obtain ⟨_, _, _, cur, nested, _, hitems, _, hpw, hnok⟩ := nestNs_char hnest
  obtain ⟨z, hz, hext⟩ := forall₂_childExt_mem hpw y hy
  obtain ⟨hzu, hzn, hzt, _, _⟩ := hext
  have hzname : z.name = some n := by rw [hzn, hyn]
  have hnn : n ∉ nested := by
    intro hmem
    obtain ⟨hd, x, hx, hxn⟩ := hnok n hmem
    rcases hside with hnd | ⟨_, hnp⟩
    · exact hnd hd
    · exact hnp x hx hxn
  refine ⟨z, ?_, hzu, hzname, hzt⟩
  rw [hitems]
  apply List.mem_filter.mpr
  refine ⟨hz, ?_⟩
  simp only [hzname, nameInSet, Bool.not_eq_true']
  exact contains_eq_false_of_not_mem hnn

/-- C7 witness at a dot-free item. -/
theorem c7_witness :
    ∃ z ∈ c7ns.items, z.uid = "q1" ∧ z.name = some "Solo" ∧ z.type = some "Class" :=
  c7_unparented_items_stay c7ns c7ns (.mk "q1" (some "Solo") (some "Class") []) "Solo"
    (by decide) (by decide) rfl (Or.inl (by decide))

/-- C8: the nester preserves the relative order of namespaces (each output
namespace keeps its position, identifier, name and kind) and, inside each
namespace, the surviving top-level items form an order-preserving sublist of
the original item list. -/
theorem c8_order_preserved :
    ∀ (nss out : List Namespace), nest_items nss = some out →
      out.map Namespace.uid = nss.map Namespace.uid ∧
      out.map Namespace.name = nss.map Namespace.name ∧
      out.map Namespace.type = nss.map Namespace.type ∧
      List.Forall₂ (fun b a => List.Sublist (b.items.map itemKey) (a.items.map itemKey)) out nss
  | [], out, h => by
    obtain rfl : [] = out := Option.some.inj h
    exact ⟨rfl, rfl, rfl, List.Forall₂.nil⟩
  | a :: rest, out, h => by
    simp only [nest_items] at h
    cases ha : nestNs a with
    | none => rw [ha] at h; cases h
    | some a' =>
      rw [ha] at h
      cases hr : nest_items rest with
      | none => rw [hr] at h; cases h
      | some rest' =>
        rw [hr] at h
        obtain rfl : a' :: rest' = out := Option.some.inj h
        obtain ⟨hu, hm, ht, hsub⟩ := nestNs_fields_sub ha
        obtain ⟨hru, hrm, hrt, hrf⟩ := c8_order_preserved rest rest' hr
        exact ⟨by simp [hu, hru], by simp [hm, hrm], by simp [ht, hrt],
          List.Forall₂.cons hsub hrf⟩

/-- C8 witness. -/
theorem c8_witness :
    c8out.map Namespace.uid = c8nss.map Namespace.uid ∧
    c8out.map Namespace.name = c8nss.map Namespace.name ∧
    c8out.map Namespace.type = c8nss.map Namespace.type ∧
    List.Forall₂ (fun b a => List.Sublist (b.items.map itemKey) (a.items.map itemKey))
      c8out c8nss :=
  c8_order_preserved c8nss c8out (by decide)

/-! ## Claim C3 (amended) -/

/-- C3 (amended): for a namespace with an item named `Foo` and an item named
`Foo.Bar`, *provided the `Foo` item is not itself re-parented* (its name has
no dot, or its own parent part matches no item), the nested output has an
item named `Foo` carrying a child with name `Bar` and the identifier and
kind copied verbatim from the `Foo.Bar` item; no top-level `Foo.Bar` entry
remains; and the serialized output renders that child (at child indentation)
inside the document. -/
theorem c3_amended_child_placement (ns ns' : Namespace) (y : Item) (p c : String)
    (hnest : nestNs ns = some ns')
    (hy : y ∈ ns.items) (hyn : y.name = some (p ++ "." ++ c)) (hc : '.' ∉ c.data)
    (hx : ∃ x ∈ ns.items, x.name = some p)
    (hp : '.' ∉ p.data ∨ ∀ x ∈ ns.items, x.name ≠ some (rsplitParent p)) :
    ∃ z ∈ ns'.items, z.name = some p ∧
      Item.mk y.uid (some c) y.type [] ∈ z.children ∧
      (∀ w ∈ ns'.items, w.name ≠ some (p ++ "." ++ c)) ∧
      ∀ nss' : List Namespace, ns' ∈ nss' →
        List.IsInfix (write_item (Item.mk y.uid (some c) y.type []) 2)
          (write_toc_lines nss') := by
  obtain ⟨_, _, _, cur, nested, hpass, hitems, hkeys, hpw, hnok⟩ := nestNs_char hnest
  obtain ⟨l1, l2, hsplit⟩ := List.append_of_mem hy
  rw [hsplit, nestPassGo_append] at hpass
  cases hmid : nestPassGo ((l1 ++ y :: l2 : List Item), ([] : List String)) l1 with
  | none => rw [hmid] at hpass; simp at hpass
  | some acc1 =>
    rw [hmid, Option.some_bind] at hpass
    have hkeys1 : acc1.1.map itemKey = ns.items.map itemKey := by
      rw [hsplit]
      exact nestPassGo_keys hmid
    have hx1 : ∃ x ∈ acc1.1, x.name = some p :=
      exists_name_of_keys_eq hkeys1.symm hx
    have hfound : (attachToFirst p (childOf y c) acc1.1).2 = true :=
      attachToFirst_found_true p (childOf y c) acc1.1 hx1
    have hstep : nestStep acc1 y =
        some ((attachToFirst p (childOf y c) acc1.1).1, acc1.2 ++ [p ++ "." ++ c]) := by
      simp only [nestStep, hyn]
      rw [if_pos (dot_mem_concat p c), rsplitParent_concat p c hc,
        rsplitChild_concat p c hc, if_pos hfound]
    simp only [nestPassGo, hstep] at hpass
    obtain ⟨P, hPmem, hPname, hPchild⟩ := attachToFirst_found_mem p (childOf y c) acc1.1 hx1
    have hpw2 := nestPassGo_pointwise l2 _ _ hpass
    obtain ⟨z, hz, hext⟩ := forall₂_childExt_mem hpw2 P hPmem
    obtain ⟨hzu, hzn, hzt, ext, hzc⟩ := hext
    have hzname : z.name = some p := by rw [hzn, hPname]
    have hchild : childOf y c ∈ z.children := by
      rw [hzc]
      exact List.mem_append_left _ hPchild
    have hnc_mem : (p ++ "." ++ c) ∈ nested :=
      nestPassGo_nested_mono l2 _ _ hpass _ (List.mem_append_right _ (by simp))
    have hpnot : p ∉ nested := by
      intro hmem
      obtain ⟨hd, x, hxmem, hxn⟩ := hnok p hmem
      rcases hp with hnd | hnp
      · exact hnd hd
      · exact hnp x hxmem hxn
    have hzin : z ∈ ns'.items := by
      rw [hitems]
      apply List.mem_filter.mpr
      refine ⟨hz, ?_⟩
      simp only [hzname, nameInSet, Bool.not_eq_true']
      exact contains_eq_false_of_not_mem hpnot
    refine ⟨z, hzin, hzname, hchild, ?_, ?_⟩
    · intro w hw hwname
      rw [hitems] at hw
      obtain ⟨hwcur, hwpred⟩ := List.mem_filter.mp hw
      simp only [hwname, nameInSet, Bool.not_eq_true'] at hwpred
      rw [contains_eq_true_of_mem hnc_mem] at hwpred
      cases hwpred
    · intro nss' hns
      exact ((write_item_child_within hchild 1).trans
        (toplevel_item_lines_within hzin)).trans (ns_mem_write_toc_lines hns)

/-- C3 witness: the spec's end-to-end `Widget` / `Widget.Inner` example. -/
theorem c3_witness :
    ∃ z ∈ c3wout.items, z.name = some "Widget" ∧
      Item.mk "b" (some "Inner") (some "Class") [] ∈ z.children ∧
      (∀ w ∈ c3wout.items, w.name ≠ some ("Widget" ++ "." ++ "Inner")) ∧
      ∀ nss' : List Namespace, c3wout ∈ nss' →
        List.IsInfix (write_item (Item.mk "b" (some "Inner") (some "Class") []) 2)
          (write_toc_lines nss') :=
  c3_amended_child_placement c3wns c3wout
    (.mk "b" (some "Widget.Inner") (some "Class") []) "Widget" "Inner"
    (by decide) (by decide) (by decide) (by decide)
    ⟨.mk "a" (some "Widget") (some "Class") [], by decide, rfl⟩
    (Or.inl (by decide))

/-! ## Claim C1 (amended) -/

/-- C1 (amended): for a namespace whose item list is exactly
`[A, A.B, A.B.C]`, the single pass over the original list nests `B` under `A`
and attaches `C` as a child of the still-present `A.B` item (removal happens
only after the full scan); but the rebuild then removes both `A.B` and
`A.B.C` from the top level, so the writer's output contains only `A` with
child `B` — the `A.B` entry, with its child `C`, does not appear in the
serialized output. -/
theorem c1_amended_single_pass (u : String) (nn nt : Option String)
    (uA uB uC : String) (tA tB tC : Option String) (a b c : String)
    (ha : '.' ∉ a.data) (hb : '.' ∉ b.data) (hc : '.' ∉ c.data) :
    nestPassGo ([.mk uA (some a) tA [], .mk uB (some (a ++ "." ++ b)) tB [],
                 .mk uC (some (a ++ "." ++ b ++ "." ++ c)) tC []], [])
        [.mk uA (some a) tA [], .mk uB (some (a ++ "." ++ b)) tB [],
         .mk uC (some (a ++ "." ++ b ++ "." ++ c)) tC []] =
      some ([.mk uA (some a) tA [.mk uB (some b) tB []],
             .mk uB (some (a ++ "." ++ b)) tB [.mk uC (some c) tC []],
             .mk uC (some (a ++ "." ++ b ++ "." ++ c)) tC []],
            [a ++ "." ++ b, a ++ "." ++ b ++ "." ++ c]) ∧
    nest_items [⟨u, nn, nt, [.mk uA (some a) tA [],
                             .mk uB (some (a ++ "." ++ b)) tB [],
                             .mk uC (some (a ++ "." ++ b ++ "." ++ c)) tC []]⟩] =
      some [⟨u, nn, nt, [.mk uA (some a) tA [.mk uB (some b) tB []]]⟩] ∧
    write_toc_lines [⟨u, nn, nt, [.mk uA (some a) tA [.mk uB (some b) tB []]]⟩] =
      ["### YamlMime:TableOfContent", "items:",
       "- uid: " ++ u, "  name: " ++ pyShow nn, "  type: " ++ pyShow nt, "  items:",
       "  - uid: " ++ uA, "    name: " ++ a, "    type: " ++ pyShow tA, "    items:",
       "    - uid: " ++ uB, "      name: " ++ b, "      type: " ++ pyShow tB] := by
  have hne1 : ¬ ((some a : Option String) = some (a ++ "." ++ b)) :=
    fun h => str_ne_dot_extend a b (Option.some.inj h)
  have s1 : nestStep (([.mk uA (some a) tA [], .mk uB (some (a ++ "." ++ b)) tB [],
      .mk uC (some (a ++ "." ++ b ++ "." ++ c)) tC []] : List Item), ([] : List String))
      (.mk uA (some a) tA []) =
      some ([.mk uA (some a) tA [], .mk uB (some (a ++ "." ++ b)) tB [],
             .mk uC (some (a ++ "." ++ b ++ "." ++ c)) tC []], []) := by
    simp only [nestStep, Item.name]
    rw [if_neg ha]
  have hat2 : attachToFirst a (childOf (.mk uB (some (a ++ "." ++ b)) tB []) b)
      [.mk uA (some a) tA [], .mk uB (some (a ++ "." ++ b)) tB [],
       .mk uC (some (a ++ "." ++ b ++ "." ++ c)) tC []] =
      ([.mk uA (some a) tA [.mk uB (some b) tB []],
        .mk uB (some (a ++ "." ++ b)) tB [],
        .mk uC (some (a ++ "." ++ b ++ "." ++ c)) tC []], true) := by
    simp only [attachToFirst, Item.name, if_pos rfl]
    simp [Item.addChild, childOf, Item.uid, Item.type]
  have s2 : nestStep (([.mk uA (some a) tA [], .mk uB (some (a ++ "." ++ b)) tB [],
      .mk uC (some (a ++ "." ++ b ++ "." ++ c)) tC []] : List Item), ([] : List String))
      (.mk uB (some (a ++ "." ++ b)) tB []) =
      some ([.mk uA (some a) tA [.mk uB (some b) tB []],
             .mk uB (some (a ++ "." ++ b)) tB [],
             .mk uC (some (a ++ "." ++ b ++ "." ++ c)) tC []], [a ++ "." ++ b]) := by
    simp only [nestStep, Item.name]
    rw [if_pos (dot_mem_concat a b), rsplitParent_concat a b hb, rsplitChild_concat a b hb,
      hat2]
    simp
  have hat3 : attachToFirst (a ++ "." ++ b)
      (childOf (.mk uC (some (a ++ "." ++ b ++ "." ++ c)) tC []) c)
      [.mk uA (some a) tA [.mk uB (some b) tB []],
       .mk uB (some (a ++ "." ++ b)) tB [],
       .mk uC (some (a ++ "." ++ b ++ "." ++ c)) tC []] =
      ([.mk uA (some a) tA [.mk uB (some b) tB []],
        .mk uB (some (a ++ "." ++ b)) tB [.mk uC (some c) tC []],
        .mk uC (some (a ++ "." ++ b ++ "." ++ c)) tC []], true) := by
    simp only [attachToFirst, Item.name]
    rw [if_neg hne1]
    simp [attachToFirst, Item.name, Item.addChild, childOf, Item.uid, Item.type]
  have s3 : nestStep (([.mk uA (some a) tA [.mk uB (some b) tB []],
      .mk uB (some (a ++ "." ++ b)) tB [],
      .mk uC (some (a ++ "." ++ b ++ "." ++ c)) tC []] : List Item), [a ++ "." ++ b])
      (.mk uC (some (a ++ "." ++ b ++ "." ++ c)) tC []) =
      some ([.mk uA (some a) tA [.mk uB (some b) tB []],
             .mk uB (some (a ++ "." ++ b)) tB [.mk uC (some c) tC []],
             .mk uC (some (a ++ "." ++ b ++ "." ++ c)) tC []],
            [a ++ "." ++ b, a ++ "." ++ b ++ "." ++ c]) := by
    simp only [nestStep, Item.name]
    rw [if_pos (dot_mem_concat (a ++ "." ++ b) c),
      rsplitParent_concat (a ++ "." ++ b) c hc, rsplitChild_concat (a ++ "." ++ b) c hc,
      hat3]
    simp
  have hpass : nestPassGo (([.mk uA (some a) tA [], .mk uB (some (a ++ "." ++ b)) tB [],
      .mk uC (some (a ++ "." ++ b ++ "." ++ c)) tC []] : List Item), ([] : List String))
      [.mk uA (some a) tA [], .mk uB (some (a ++ "." ++ b)) tB [],
       .mk uC (some (a ++ "." ++ b ++ "." ++ c)) tC []] =
      some ([.mk uA (some a) tA [.mk uB (some b) tB []],
             .mk uB (some (a ++ "." ++ b)) tB [.mk uC (some c) tC []],
             .mk uC (some (a ++ "." ++ b ++ "." ++ c)) tC []],
            [a ++ "." ++ b, a ++ "." ++ b ++ "." ++ c]) := by
    simp only [nestPassGo, s1, s2, s3]
  have hnotmem : a ∉ [a ++ "." ++ b, a ++ "." ++ b ++ "." ++ c] := by
    intro h
    rcases List.mem_cons.mp h with h1 | h2
    · exact str_ne_dot_extend a b h1
    · rcases List.mem_cons.mp h2 with h3 | h4
      · exact str_ne_dot_extend₂ a b c h3
      · cases h4
  have f1 : nameInSet [a ++ "." ++ b, a ++ "." ++ b ++ "." ++ c] (some a) = false :=
    contains_eq_false_of_not_mem hnotmem
  have f2 : nameInSet [a ++ "." ++ b, a ++ "." ++ b ++ "." ++ c] (some (a ++ "." ++ b)) = true :=
    contains_eq_true_of_mem (by simp)
  have f3 : nameInSet [a ++ "." ++ b, a ++ "." ++ b ++ "." ++ c]
      (some (a ++ "." ++ b ++ "." ++ c)) = true :=
    contains_eq_true_of_mem (by simp)
  refine ⟨hpass, ?_, ?_⟩
  · simp only [nest_items, nestNs]
    rw [if_neg (by simp : ¬ (([.mk uA (some a) tA [], .mk uB (some (a ++ "." ++ b)) tB [],
      .mk uC (some (a ++ "." ++ b ++ "." ++ c)) tC []] : List Item).isEmpty = true))]
    rw [hpass]
    simp only [List.filter_cons, List.filter_nil, Item.name, f1, f2, f3,
      Bool.not_false, Bool.not_true, Bool.false_eq_true, eq_self_iff_true,
      if_true, if_false]
  · have e1 : pfx 1 ++ "- uid: " = "  - uid: " := rfl
    have e2 : pfx 1 ++ "  name: " = "    name: " := rfl
    have e3 : pfx 1 ++ "  type: " = "    type: " := rfl
    have e4 : pfx 1 ++ "  items:" = "    items:" := rfl
    have e5 : pfx (1 + 1) ++ "- uid: " = "    - uid: " := rfl
    have e6 : pfx (1 + 1) ++ "  name: " = "      name: " := rfl
    have e7 : pfx (1 + 1) ++ "  type: " = "      type: " := rfl
    simp only [write_toc_lines, List.flatMap_cons, List.flatMap_nil, List.append_nil, nsLines]
    rw [if_neg (by simp : ¬ (([.mk uA (some a) tA [.mk uB (some b) tB []]] : List Item).isEmpty = true))]
    simp only [write_children, write_item, List.isEmpty_cons, List.isEmpty_nil, pyShow,
      Bool.false_eq_true, if_false, eq_self_iff_true, if_true, List.append_nil,
      e1, e2, e3, e4, e5, e6, e7]

/-- C1 witness at concrete names. -/
theorem c1_witness :
    nestPassGo ([.mk "u1" (some "A") (some "Class") [],
                 .mk "u2" (some ("A" ++ "." ++ "B")) (some "Class") [],
                 .mk "u3" (some ("A" ++ "." ++ "B" ++ "." ++ "C")) (some "Class") []], [])
        [.mk "u1" (some "A") (some "Class") [],
         .mk "u2" (some ("A" ++ "." ++ "B")) (some "Class") [],
         .mk "u3" (some ("A" ++ "." ++ "B" ++ "." ++ "C")) (some "Class") []] =
      some ([.mk "u1" (some "A") (some "Class") [.mk "u2" (some "B") (some "Class") []],
             .mk "u2" (some ("A" ++ "." ++ "B")) (some "Class")
               [.mk "u3" (some "C") (some "Class") []],
             .mk "u3" (some ("A" ++ "." ++ "B" ++ "." ++ "C")) (some "Class") []],
            ["A" ++ "." ++ "B", "A" ++ "." ++ "B" ++ "." ++ "C"]) ∧
    nest_items [⟨"n0", some "NS", some "Nsp",
                 [.mk "u1" (some "A") (some "Class") [],
                  .mk "u2" (some ("A" ++ "." ++ "B")) (some "Class") [],
                  .mk "u3" (some ("A" ++ "." ++ "B" ++ "." ++ "C")) (some "Class") []]⟩] =
      some [⟨"n0", some "NS", some "Nsp",
             [.mk "u1" (some "A") (some "Class") [.mk "u2" (some "B") (some "Class") []]]⟩] ∧
    write_toc_lines [⟨"n0", some "NS", some "Nsp",
                      [.mk "u1" (some "A") (some "Class")
                        [.mk "u2" (some "B") (some "Class") []]]⟩] =
      ["### YamlMime:TableOfContent", "items:",
       "- uid: " ++ "n0", "  name: " ++ pyShow (some "NS"), "  type: " ++ pyShow (some "Nsp"),
       "  items:",
       "  - uid: " ++ "u1", "    name: " ++ "A", "    type: " ++ pyShow (some "Class"),
       "    items:",
       "    - uid: " ++ "u2", "      name: " ++ "B", "      type: " ++ pyShow (some "Class")] :=
  c1_amended_single_pass "n0" (some "NS") (some "Nsp") "u1" "u2" "u3"
    (some "Class") (some "Class") (some "Class") "A" "B" "C"
    (by decide) (by decide) (by decide)

/-! ## Claims C9, C6 (amended), C4 (amended) -/

theorem parseLines_append :
    ∀ (a b : List String) (st : PState),
      parseLines (a ++ b) st = (parseLines a st).bind (fun st' => parseLines b st')
  | [], b, st => rfl
  | l :: ls, b, st => by
    simp only [List.cons_append, parseLines]
    cases hp : parseLine st l with
    | none => rfl
    | some st' => exact parseLines_append ls b st'

/-- A parsed record is produced for every namespace entry line: the flushed
result plus the in-progress namespace always counts them exactly. -/
theorem parseLines_count :
    ∀ (ls : List String) (st st' : PState),
      parseLines ls st = some st' →
      st'.result.length + (flushList st'.curNs).length =
        st.result.length + (flushList st.curNs).length + (ls.filter isNsStartLine).length
  | [], st, st', h => by
    obtain rfl := Option.some.inj h
    simp
  | l :: ls, st, st', h => by
    simp only [parseLines] at h
    cases hp : parseLine st l with
    | none => rw [hp] at h; cases h
    | some st1 =>
      rw [hp] at h
      have hrec := parseLines_count ls st1 st' h
      by_cases hns : isNsStartLine l = true
      · rw [parseLine_nsStart st l hns] at hp
        obtain rfl := Option.some.inj hp
        rw [List.filter_cons_of_pos hns]
        simp only [List.length_append, flushList, List.length_cons, List.length_nil] at hrec ⊢
        omega
      · have hnsf : isNsStartLine l = false := by simpa using hns
        obtain ⟨hres, hsome⟩ := parseLine_preserve hnsf hp
        rw [List.filter_cons_of_neg (by simp [hnsf])]
        have hfl : (flushList st1.curNs).length = (flushList st.curNs).length := by
          rw [flushList_length, flushList_length, hsome]
        rw [hres, hfl] at hrec
        omega

/-- C9: the parser appends the final in-progress namespace: a successful
parse returns one record per `- uid:` line at indentation 0, the last one
included. -/
theorem c9_last_namespace_flushed (s : String) (res : List Namespace)
    (h : parse_toc s = some res) :
    res.length = ((splitLines s).filter isNsStartLine).length := by
  unfold parse_toc at h
  cases hp : parseLines (splitLines s) ⟨[], none, false⟩ with
  | none => rw [hp] at h; cases h
  | some stf =>
    rw [hp, show (some stf).map finalize = some (finalize stf) from rfl] at h
    obtain rfl := (Option.some.inj h)
    have hc := parseLines_count (splitLines s) _ _ hp
    have hz0 : ((⟨[], none, false⟩ : PState)).result.length = 0 := rfl
    have hz1 : (flushList ((⟨[], none, false⟩ : PState)).curNs).length = 0 := rfl
    rw [hz0, hz1] at hc
    simp only [finalize, List.length_append]
    omega

/-- C9 witness: two namespace entry lines, the second still in progress at
end of input. -/
theorem c9_witness :
    ([⟨"A", some "NA", none, []⟩, ⟨"B", none, none, []⟩] : List Namespace).length =
      ((splitLines "- uid: A\n  name: NA\n- uid: B").filter isNsStartLine).length :=
  c9_last_namespace_flushed "- uid: A\n  name: NA\n- uid: B"
    [⟨"A", some "NA", none, []⟩, ⟨"B", none, none, []⟩] (by decide)

theorem parseLines_ok :
    ∀ (ls : List String) (st : PState),
      okScanGo st.curNs.isSome ls = true → (parseLines ls st).isSome = true
  | [], _, _ => rfl
  | l :: ls, st, hok => by
    simp only [okScanGo] at hok
    by_cases hcond : (isItemStartLine l && !st.curNs.isSome) = true
    · rw [if_pos hcond] at hok; cases hok
    · rw [if_neg hcond] at hok
      have hsome1 : (parseLine st l).isSome = true := by
        by_cases hit : isItemStartLine l = true
        · have hcs : st.curNs.isSome = true := by
            cases hcs : st.curNs.isSome
            · exfalso; apply hcond; rw [hit, hcs]; rfl
            · rfl
          obtain ⟨ns, hns⟩ := Option.isSome_iff_exists.mp hcs
          exact parseLine_total_some hns
        · exact parseLine_total_not_item (by simpa using hit)
      obtain ⟨st1, hst1⟩ := Option.isSome_iff_exists.mp hsome1
      simp only [parseLines]
      rw [hst1]
      apply parseLines_ok ls st1
      have hrel : st1.curNs.isSome = (st.curNs.isSome || isNsStartLine l) := by
        by_cases hns : isNsStartLine l = true
        · rw [parseLine_nsStart st l hns] at hst1
          obtain rfl := Option.some.inj hst1
          simp [hns]
        · have hnsf : isNsStartLine l = false := by simpa using hns
          obtain ⟨_, hsome⟩ := parseLine_preserve hnsf hst1
          rw [hsome, hnsf, Bool.or_false]
      rw [hrel]
      exact hok

/-- C6 (amended): the parser raises no error on any input in which every
item entry line (`- uid:` at indentation 2) is preceded by some namespace
entry line (`- uid:` at indentation 0); every other line shape is processed
or silently ignored without raising. -/
theorem c6_amended_no_raise (s : String)
    (hok : okScanGo false (splitLines s) = true) :
    (parse_toc s).isSome = true := by
  unfold parse_toc
  have h := parseLines_ok (splitLines s) ⟨[], none, false⟩ hok
  obtain ⟨stf, hstf⟩ := Option.isSome_iff_exists.mp h
  rw [hstf]
  rfl

/-- C6 witness: garbage lines and an item line after a namespace line parse
without raising. -/
theorem c6_witness :
    okScanGo false (splitLines "garbage line\n- uid: X\n  - uid: y") = true ∧
    (parse_toc "garbage line\n- uid: X\n  - uid: y").isSome = true :=
  ⟨by decide, c6_amended_no_raise "garbage line\n- uid: X\n  - uid: y" (by decide)⟩

theorem modLast_comp (f g : Item → Item) :
    ∀ l, modLast f (modLast g l) = modLast (fun x => f (g x)) l
  | [] => rfl
  | [_] => rfl
  | x :: y :: xs => by
    have h := modLast_comp f g (y :: xs)
    obtain ⟨h0, t0, he⟩ : ∃ h0 t0, modLast g (y :: xs) = h0 :: t0 := by
      cases xs with
      | nil => exact ⟨g y, [], rfl⟩
      | cons z zs => exact ⟨y, modLast g (z :: zs), rfl⟩
    calc modLast f (modLast g (x :: y :: xs))
        = modLast f (x :: modLast g (y :: xs)) := rfl
      _ = modLast f (x :: (h0 :: t0)) := by rw [he]
      _ = x :: modLast f (h0 :: t0) := rfl
      _ = x :: modLast f (modLast g (y :: xs)) := by rw [he]
      _ = x :: modLast (fun a => f (g a)) (y :: xs) := by rw [h]
      _ = modLast (fun a => f (g a)) (x :: y :: xs) := rfl

theorem modLast_congr (f g : Item → Item) (h : ∀ x, f x = g x) :
    ∀ l, modLast f l = modLast g l
  | [] => rfl
  | [x] => by simp only [modLast, h x]
  | x :: y :: xs => by
    simp only [modLast]
    rw [modLast_congr f g h (y :: xs)]

theorem setName_override (v1 v2 : String) (x : Item) :
    Item.setName v2 (Item.setName v1 x) = Item.setName v2 x := by
  cases x; rfl

theorem modLast_setName_override (v1 v2 : String) (l : List Item) :
    modLast (Item.setName v2) (modLast (Item.setName v1) l) =
      modLast (Item.setName v2) l := by
  rw [modLast_comp]
  exact modLast_congr _ _ (setName_override v1 v2) l

/-- C4 (amended): when several `name:` lines at indentation 4 apply to the
same current item, each one overwrites the field, so the last occurrence
wins: the final state is the same as if only the last line had run
(first-occurrence-wins holds only for namespace fields at indentation 2). -/
theorem c4_amended_last_wins (pre : List String) (l1 l2 : String)
    (st : PState) (ns : Namespace)
    (h1 : isItemNameLine l1 = true) (h2 : isItemNameLine l2 = true)
    (hpre : parseLines pre ⟨[], none, false⟩ = some st)
    (hcur : st.curItem = true) (hns : st.curNs = some ns) :
    parseLines (pre ++ [l1, l2]) ⟨[], none, false⟩ =
      some ⟨st.result,
        some { ns with items := (modLast (Item.setName (fieldValue "name:" (pyStrip l2)))
          (modLast (Item.setName (fieldValue "name:" (pyStrip l1))) ns.items)) }, true⟩ ∧
    modLast (Item.setName (fieldValue "name:" (pyStrip l2)))
        (modLast (Item.setName (fieldValue "name:" (pyStrip l1))) ns.items) =
      modLast (Item.setName (fieldValue "name:" (pyStrip l2))) ns.items := by
  refine ⟨?_, modLast_setName_override _ _ ns.items⟩
  have e1 : parseLine st l1 = some ⟨st.result,
      some { ns with items :=
        (modLast (Item.setName (fieldValue "name:" (pyStrip l1))) ns.items) }, st.curItem⟩ := by
    rw [parseLine_itemName st l1 h1 hcur, hns]
    rfl
  have e2 : parseLine (⟨st.result,
      some { ns with items :=
        (modLast (Item.setName (fieldValue "name:" (pyStrip l1))) ns.items) },
      st.curItem⟩ : PState) l2 = some ⟨st.result,
      some { ns with items := (modLast (Item.setName (fieldValue "name:" (pyStrip l2)))
        (modLast (Item.setName (fieldValue "name:" (pyStrip l1))) ns.items)) },
      st.curItem⟩ := by
    rw [parseLine_itemName (⟨st.result,
      some { ns with items :=
        (modLast (Item.setName (fieldValue "name:" (pyStrip l1))) ns.items) },
      st.curItem⟩ : PState) l2 h2 hcur]
    rfl
  rw [parseLines_append, hpre, Option.some_bind]
  simp only [parseLines, e1, e2]
  rw [hcur]

/-- C4 witness: two `name:` lines for the same item; the result is as if
only the second had run. -/
theorem c4_witness :
    parseLines (["- uid: N", "  - uid: a"] ++ ["    name: first", "    name: second"])
        ⟨[], none, false⟩ =
      some ⟨[], some { uid := "N", name := none, type := none, items :=
        (modLast (Item.setName (fieldValue "name:" (pyStrip "    name: second")))
          (modLast (Item.setName (fieldValue "name:" (pyStrip "    name: first")))
            [Item.mk "a" none none []])) }, true⟩ ∧
    modLast (Item.setName (fieldValue "name:" (pyStrip "    name: second")))
        (modLast (Item.setName (fieldValue "name:" (pyStrip "    name: first")))
          [Item.mk "a" none none []]) =
      modLast (Item.setName (fieldValue "name:" (pyStrip "    name: second")))
        [Item.mk "a" none none []] :=
  c4_amended_last_wins ["- uid: N", "  - uid: a"] "    name: first" "    name: second"
    ⟨[], some ⟨"N", none, none, [Item.mk "a" none none []]⟩, true⟩
    ⟨"N", none, none, [Item.mk "a" none none []]⟩
    (by decide) (by decide) (by decide) rfl rfl

/-! ## Counterexamples -/

/-- C1: the claim is false: after the single pass, the `A.B` item (which did
receive the child `C` in memory) is itself removed from the top level, so the
writer's output contains neither an `A.B` entry nor a child named `C`. -/
theorem c1_counterexample :
    (nest_items [c1ns]).isSome = true ∧
    c1out.contains "      name: C" = false ∧
    c1out.contains "  - uid: u2" = false := by decide

/-- C2: the claim is false for forests whose items carry child lists: the
parser only recognizes entry lines at indentation 0 and 2, so the child
`Inner` (written at indentation 4) is dropped by re-parsing, and the tree
shape is not reconstructed. -/
theorem c2_counterexample :
    parse_toc (write_toc c2forest) = some c2flat ∧ c2flat ≠ c2forest := by decide

/-- C3: the claim is false when the parent item `Foo` is itself re-parented:
for `Foo = X.Y`, `Bar = Z`, the output contains neither a top-level `X.Y`
entry nor a child named `Z`. -/
theorem c3_counterexample :
    (nestNs c3ns).isSome = true ∧
    c3out.contains "      name: Z" = false ∧
    c3out.contains "  - uid: x2" = false := by decide

/-- C4: the claim is false: two `name:` lines at indentation 4 for the same
item yield the second value, not the first (the item-level field assignments
are unconditional; only namespace-level fields are first-occurrence-wins). -/
theorem c4_counterexample :
    parse_toc c4text = some c4res ∧
    c4res ≠ [⟨"N", none, none, [.mk "a" (some "first") none []]⟩] := by decide

/-- C5: the claim is false in its error-stream part: on a missing file the
diagnostic goes to the standard output stream and nothing is written to the
error stream. -/
theorem c5_counterexample :
    ¬((main_run "toc.yml" none).exitCode = 1 ∧
      (main_run "toc.yml" none).stderrLines ≠ [] ∧
      (main_run "toc.yml" none).fileAfter = none) := by decide

/-- C5 (amended): when the target file does not exist the tool exits with
status 1, prints the diagnostic to the standard output stream, and creates no
file. -/
theorem c5_amended_missing_file (path : String) :
    main_run path none = ⟨1, ["Error: " ++ path ++ " not found"], [], none⟩ := rfl

/-- C6: the claim is false: an input whose first entry line is a `- uid:` line
at indentation 2, with no preceding indentation-0 namespace entry, makes the
parser subscript `None` and raise. -/
theorem c6_counterexample : parse_toc "  - uid: x" = none := by decide

/-! ## Round-trip machinery (C2): the writer's output parses back -/

/-- The header line is skipped by the parser. -/
theorem parseLine_skip_header (st : PState) :
    parseLine st "### YamlMime:TableOfContent" = some st := rfl

/-- The top-level items-list marker is skipped. -/
theorem parseLine_skip_items0 (st : PState) : parseLine st "items:" = some st := rfl

/-- The indentation-2 items-list marker is recognized and ignored. -/
theorem parseLine_skip_items2 (st : PState) : parseLine st "  items:" = some st := rfl

/-- An empty line is skipped. -/
theorem parseLine_skip_empty (st : PState) : parseLine st "" = some st := rfl

/-- A writer-emitted namespace entry line is one, and its value reads back. -/
theorem nsUid_line (u : String) (hu : CleanFor "- uid:" u) :
    isNsStartLine ("- uid: " ++ u) = true ∧
    fieldValue "- uid:" (pyStrip ("- uid: " ++ u)) = u := by
  have heq : ("- uid: " ++ u) =
      ⟨List.replicate 0 ' ' ++ (("- uid:").data ++ ' ' :: u.data)⟩ := rfl
  obtain ⟨hs, hi, hv⟩ :=
    padded_line_facts 0 "- uid:" u '-' (" uid:").data rfl rfl rfl hu.1 hu.2.2
  rw [heq]
  refine ⟨?_, hv⟩
  unfold isNsStartLine
  rw [hs, hi]
  rfl

/-- A writer-emitted item entry line is one, and its value reads back. -/
theorem itemUid_line (u : String) (hu : CleanFor "- uid:" u) :
    isItemStartLine ("  - uid: " ++ u) = true ∧
    fieldValue "- uid:" (pyStrip ("  - uid: " ++ u)) = u := by
  have heq : ("  - uid: " ++ u) =
      ⟨List.replicate 2 ' ' ++ (("- uid:").data ++ ' ' :: u.data)⟩ := rfl
  obtain ⟨hs, hi, hv⟩ :=
    padded_line_facts 2 "- uid:" u '-' (" uid:").data rfl rfl rfl hu.1 hu.2.2
  rw [heq]
  refine ⟨?_, hv⟩
  unfold isItemStartLine
  rw [hs, hi]
  rfl

/-- A writer-emitted namespace name field line reads back its value. -/
theorem nsName_line (v : String) (hv : CleanFor "name:" v) :
    isNsNameLine ("  name: " ++ v) = true ∧
    fieldValue "name:" (pyStrip ("  name: " ++ v)) = v := by
  have heq : ("  name: " ++ v) =
      ⟨List.replicate 2 ' ' ++ (("name:").data ++ ' ' :: v.data)⟩ := rfl
  obtain ⟨hs, hi, hval⟩ :=
    padded_line_facts 2 "name:" v 'n' ("ame:").data rfl rfl rfl hv.1 hv.2.2
  rw [heq]
  refine ⟨?_, hval⟩
  unfold isNsNameLine
  rw [hs, hi]
  rfl

/-- A writer-emitted namespace type field line reads back its value. -/
theorem nsType_line (v : String) (hv : CleanFor "type:" v) :
    isNsTypeLine ("  type: " ++ v) = true ∧
    fieldValue "type:" (pyStrip ("  type: " ++ v)) = v := by
  have heq : ("  type: " ++ v) =
      ⟨List.replicate 2 ' ' ++ (("type:").data ++ ' ' :: v.data)⟩ := rfl
  obtain ⟨hs, hi, hval⟩ :=
    padded_line_facts 2 "type:" v 't' ("ype:").data rfl rfl rfl hv.1 hv.2.2
  rw [heq]
  refine ⟨?_, hval⟩
  unfold isNsTypeLine
  rw [hs, hi]
  rfl

/-- A writer-emitted item name field line reads back its value. -/
theorem itemName_line (v : String) (hv : CleanFor "name:" v) :
    isItemNameLine ("    name: " ++ v) = true ∧
    fieldValue "name:" (pyStrip ("    name: " ++ v)) = v := by
  have heq : ("    name: " ++ v) =
      ⟨List.replicate 4 ' ' ++ (("name:").data ++ ' ' :: v.data)⟩ := rfl
  obtain ⟨hs, hi, hval⟩ :=
    padded_line_facts 4 "name:" v 'n' ("ame:").data rfl rfl rfl hv.1 hv.2.2
  rw [heq]
  refine ⟨?_, hval⟩
  unfold isItemNameLine
  rw [hs, hi]
  rfl

/-- A writer-emitted item type field line reads back its value. -/
theorem itemType_line (v : String) (hv : CleanFor "type:" v) :
    isItemTypeLine ("    type: " ++ v) = true ∧
    fieldValue "type:" (pyStrip ("    type: " ++ v)) = v := by
  have heq : ("    type: " ++ v) =
      ⟨List.replicate 4 ' ' ++ (("type:").data ++ ' ' :: v.data)⟩ := rfl
  obtain ⟨hs, hi, hval⟩ :=
    padded_line_facts 4 "type:" v 't' ("ype:").data rfl rfl rfl hv.1 hv.2.2
  rw [heq]
  refine ⟨?_, hval⟩
  unfold isItemTypeLine
  rw [hs, hi]
  rfl

/-- Mutating the current item hits exactly the just-appended element. -/
theorem modLast_append_singleton (f : Item → Item) :
    ∀ (l : List Item) (x : Item), modLast f (l ++ [x]) = l ++ [f x]
  | [], _ => rfl
  | y :: ys, x => by
    rw [List.cons_append]
    cases hys : ys ++ [x] with
    | nil => exact absurd hys (by simp)
    | cons a as =>
      rw [show modLast f (y :: a :: as) = y :: modLast f (a :: as) from rfl, ← hys,
        modLast_append_singleton f ys x, List.cons_append]

theorem no_nl_append {a b : String} (ha : '\n' ∉ a.data) (hb : '\n' ∉ b.data) :
    '\n' ∉ (a ++ b).data := by
  rw [str_data_append]
  intro h
  rcases List.mem_append.mp h with h' | h'
  · exact ha h'
  · exact hb h'

/-- Lines the writer emits for a clean item contain no newline. -/
theorem write_item_no_nl {it : Item} (hit : CleanItem it) :
    ∀ l ∈ write_item it 1, '\n' ∉ l.data := by
  obtain ⟨hch, hnm, hty, huid⟩ := hit
  cases it with
  | mk u no t cs =>
    simp only [Item.children] at hch
    subst hch
    cases no with
    | none => exact hnm.elim
    | some n =>
      cases t with
      | none => exact hty.elim
      | some ty =>
        intro l hl
        rw [show write_item (Item.mk u (some n) (some ty) []) 1 =
          ["  - uid: " ++ u, "    name: " ++ n, "    type: " ++ ty] from rfl] at hl
        simp only [List.mem_cons, List.not_mem_nil, or_false] at hl
        rcases hl with rfl | rfl | rfl
        · exact no_nl_append (by decide) huid.2.1
        · exact no_nl_append (by decide) hnm.2.1
        · exact no_nl_append (by decide) hty.2.1

/-- Lines the writer emits for a list of clean items contain no newline. -/
theorem write_children_no_nl :
    ∀ (its : List Item), (∀ it ∈ its, CleanItem it) →
      ∀ l ∈ write_children its 1, '\n' ∉ l.data
  | [], _, l, hl => absurd hl (by simp [write_children])
  | it :: its', h, l, hl => by
    rw [show write_children (it :: its') 1 = write_item it 1 ++ write_children its' 1
      from rfl] at hl
    rcases List.mem_append.mp hl with h' | h'
    · exact write_item_no_nl (h it (List.mem_cons_self it its')) l h'
    · exact write_children_no_nl its' (fun x hx => h x (List.mem_cons_of_mem it hx)) l h'

/-- Lines the writer emits for a clean namespace contain no newline. -/
theorem nsLines_no_nl {ns : Namespace} (h : CleanNs ns) :
    ∀ l ∈ nsLines ns, '\n' ∉ l.data := by
  obtain ⟨hnm, hty, huid, hits⟩ := h
  cases ns with
  | mk u no t its =>
    cases no with
    | none => exact hnm.elim
    | some n =>
      cases t with
      | none => exact hty.elim
      | some ty =>
        intro l hl
        simp only [nsLines, pyShow, List.mem_cons] at hl
        rcases hl with rfl | rfl | rfl | hl
        · exact no_nl_append (by decide) huid.2.1
        · exact no_nl_append (by decide) hnm.2.1
        · exact no_nl_append (by decide) hty.2.1
        · by_cases hemp : its.isEmpty = true
          · rw [if_pos hemp] at hl
            exact absurd hl (List.not_mem_nil l)
          · rw [if_neg hemp] at hl
            rcases List.mem_cons.mp hl with rfl | h'
            · decide
            · exact write_children_no_nl its (fun x hx => hits x hx) l h'

/-- No line the writer ever emits for a clean forest contains a newline. -/
theorem write_toc_lines_no_nl {F : List Namespace} (hF : CleanForest F) :
    ∀ l ∈ write_toc_lines F, '\n' ∉ l.data := by
  intro l hl
  simp only [write_toc_lines, List.mem_cons] at hl
  rcases hl with rfl | rfl | hl
  · decide
  · decide
  · rcases List.mem_flatMap.mp hl with ⟨ns, hns, hmem⟩
    exact nsLines_no_nl (hF ns hns) l hmem

/-- Splitting a newline-free chunk returns it whole. -/
theorem splitOnNl_no_nl : ∀ (l : List Char), '\n' ∉ l → splitOnNl l = [l]
  | [], _ => rfl
  | c :: rest, h => by
    have hc : ¬ c = '\n' := fun hcc => h (hcc ▸ List.mem_cons_self c rest)
    rw [show splitOnNl (c :: rest) = if c = '\n' then [] :: splitOnNl rest else
      (match splitOnNl rest with
       | [] => [[c]]
       | r :: rs => (c :: r) :: rs) from rfl,
      if_neg hc, splitOnNl_no_nl rest (fun hr => h (List.mem_cons_of_mem c hr))]

/-- Splitting peels off a leading newline-free chunk. -/
theorem splitOnNl_append_nl : ∀ (l r : List Char), '\n' ∉ l →
    splitOnNl (l ++ '\n' :: r) = l :: splitOnNl r
  | [], r, _ => by
    rw [List.nil_append,
      show splitOnNl ('\n' :: r) = if ('\n' : Char) = '\n' then [] :: splitOnNl r else
        (match splitOnNl r with
         | [] => [['\n']]
         | r' :: rs => ('\n' :: r') :: rs) from rfl,
      if_pos rfl]
  | c :: l', r, h => by
    have hc : ¬ c = '\n' := fun hcc => h (hcc ▸ List.mem_cons_self c l')
    rw [List.cons_append,
      show splitOnNl (c :: (l' ++ '\n' :: r)) =
        if c = '\n' then [] :: splitOnNl (l' ++ '\n' :: r) else
        (match splitOnNl (l' ++ '\n' :: r) with
         | [] => [[c]]
         | r' :: rs => (c :: r') :: rs) from rfl,
      if_neg hc, splitOnNl_append_nl l' r (fun hr => h (List.mem_cons_of_mem c hr))]

/-- Splitting a nonempty newline-joined list of newline-free chunks, with the
trailing newline the writer appends, recovers the chunks plus a final empty
line. -/
theorem splitOnNl_join : ∀ (l0 : List Char) (ls : List (List Char)),
    '\n' ∉ l0 → (∀ l ∈ ls, '\n' ∉ l) →
    splitOnNl (joinNlL (l0 :: ls) ++ ['\n']) = (l0 :: ls) ++ [[]]
  | l0, [], h0, _ => by
    rw [show joinNlL [l0] = l0 from rfl,
      show l0 ++ ['\n'] = l0 ++ '\n' :: ([] : List Char) from rfl,
      splitOnNl_append_nl l0 [] h0]
    rfl
  | l0, l1 :: ls', h0, h => by
    rw [show joinNlL (l0 :: l1 :: ls') = l0 ++ '\n' :: joinNlL (l1 :: ls') from rfl,
      List.append_assoc,
      show ('\n' :: joinNlL (l1 :: ls')) ++ ['\n'] =
        '\n' :: (joinNlL (l1 :: ls') ++ ['\n']) from rfl,
      splitOnNl_append_nl l0 _ h0,
      splitOnNl_join l1 ls' (h l1 (List.mem_cons_self l1 ls'))
        (fun x hx => h x (List.mem_cons_of_mem l1 hx))]
    rfl

/-- Re-packing the split character lists as strings is the identity. -/
theorem map_mk_map_data :
    ∀ (L : List String), (L.map String.data).map (fun cs => (⟨cs⟩ : String)) = L
  | [] => rfl
  | a :: as => by
    simp only [List.map_cons]
    rw [mk_data, map_mk_map_data as]

/-- Splitting the writer's output recovers its line list plus one trailing
empty line (produced by the final newline). -/
theorem splitLines_write_toc {F : List Namespace} (hF : CleanForest F) :
    splitLines (write_toc F) = write_toc_lines F ++ [""] := by
  have h1 : splitLines (write_toc F) =
      (splitOnNl (joinNlL ((write_toc_lines F).map String.data) ++ ['\n'])).map
        (fun cs => (⟨cs⟩ : String)) := rfl
  rw [h1,
    show (write_toc_lines F).map String.data =
      ("### YamlMime:TableOfContent").data ::
        (("items:" :: F.flatMap nsLines).map String.data) from rfl]
  have hno : ∀ l ∈ ("items:" :: F.flatMap nsLines).map String.data, '\n' ∉ l := by
    intro l hl
    rcases List.mem_map.mp hl with ⟨s, hs, rfl⟩
    rcases List.mem_cons.mp hs with rfl | hs'
    · decide
    · exact write_toc_lines_no_nl hF s
        (List.mem_cons_of_mem _ (List.mem_cons_of_mem _ hs'))
  rw [splitOnNl_join _ _ (by decide) hno, List.map_append,
    show ("### YamlMime:TableOfContent").data ::
        (("items:" :: F.flatMap nsLines).map String.data) =
      (write_toc_lines F).map String.data from rfl,
    map_mk_map_data]
  rfl

/-- Specialization of the item name field step to a present namespace. -/
theorem parseLine_itemName_some (st : PState) (l : String) (ns : Namespace)
    (h : isItemNameLine l = true) (hcur : st.curItem = true) (hns : st.curNs = some ns) :
    parseLine st l = some ⟨st.result,
      some { ns with items :=
        (modLast (Item.setName (fieldValue "name:" (pyStrip l))) ns.items) },
      st.curItem⟩ := by
  rw [parseLine_itemName st l h hcur, hns]
  rfl

/-- Specialization of the item type field step to a present namespace. -/
theorem parseLine_itemType_some (st : PState) (l : String) (ns : Namespace)
    (h : isItemTypeLine l = true) (hcur : st.curItem = true) (hns : st.curNs = some ns) :
    parseLine st l = some ⟨st.result,
      some { ns with items :=
        (modLast (Item.setType (fieldValue "type:" (pyStrip l))) ns.items) },
      st.curItem⟩ := by
  rw [parseLine_itemType st l h hcur, hns]
  rfl

/-- Parsing back the three lines the writer emits for one clean flat item
appends exactly that item to the current namespace. -/
theorem parse_item_block (it : Item) (hit : CleanItem it) (res : List Namespace)
    (ns : Namespace) (b : Bool) :
    parseLines (write_item it 1) ⟨res, some ns, b⟩ =
      some ⟨res, some { ns with items := ns.items ++ [it] }, true⟩ := by
  obtain ⟨hch, hnm, hty, huid⟩ := hit
  cases it with
  | mk u no t cs =>
    simp only [Item.children] at hch
    subst hch
    cases no with
    | none => exact hnm.elim
    | some n =>
      cases t with
      | none => exact hty.elim
      | some ty =>
        obtain ⟨hu1, hu2⟩ := itemUid_line u huid
        obtain ⟨hn1, hn2⟩ := itemName_line n hnm
        obtain ⟨ht1, ht2⟩ := itemType_line ty hty
        have e1 : parseLine (⟨res, some ns, b⟩ : PState) ("  - uid: " ++ u) =
            some ⟨res, some { ns with items := ns.items ++ [Item.mk u none none []] },
              true⟩ := by
          rw [parseLine_itemStart (⟨res, some ns, b⟩ : PState) ("  - uid: " ++ u) ns hu1 rfl,
            hu2]
        have e2 : parseLine (⟨res,
            some { ns with items := ns.items ++ [Item.mk u none none []] },
            true⟩ : PState) ("    name: " ++ n) =
            some ⟨res, some { ns with items := ns.items ++ [Item.mk u (some n) none []] },
              true⟩ := by
          rw [parseLine_itemName_some (⟨res,
            some { ns with items := ns.items ++ [Item.mk u none none []] },
            true⟩ : PState) ("    name: " ++ n)
            ({ ns with items := ns.items ++ [Item.mk u none none []] }) hn1 rfl rfl, hn2]
          rw [show ({ ns with items := ns.items ++ [Item.mk u none none []] } :
              Namespace).items = ns.items ++ [Item.mk u none none []] from rfl,
            modLast_append_singleton]
          try rfl
        have e3 : parseLine (⟨res,
            some { ns with items := ns.items ++ [Item.mk u (some n) none []] },
            true⟩ : PState) ("    type: " ++ ty) =
            some ⟨res,
              some { ns with items := ns.items ++ [Item.mk u (some n) (some ty) []] },
              true⟩ := by
          rw [parseLine_itemType_some (⟨res,
            some { ns with items := ns.items ++ [Item.mk u (some n) none []] },
            true⟩ : PState) ("    type: " ++ ty)
            ({ ns with items := ns.items ++ [Item.mk u (some n) none []] }) ht1 rfl rfl,
            ht2]
          rw [show ({ ns with items := ns.items ++ [Item.mk u (some n) none []] } :
              Namespace).items = ns.items ++ [Item.mk u (some n) none []] from rfl,
            modLast_append_singleton]
          try rfl
        rw [show write_item (Item.mk u (some n) (some ty) []) 1 =
          ["  - uid: " ++ u, "    name: " ++ n, "    type: " ++ ty] from rfl]
        simp only [parseLines, e1, e2, e3]

/-- Parsing back the lines for a list of clean flat items appends them all. -/
theorem parse_items_blocks :
    ∀ (its : List Item), (∀ it ∈ its, CleanItem it) →
      ∀ (res : List Namespace) (ns : Namespace) (b : Bool),
      ∃ b', parseLines (write_children its 1) ⟨res, some ns, b⟩ =
        some ⟨res, some { ns with items := ns.items ++ its }, b'⟩
  | [], _, res, ns, b => ⟨b, by
      cases ns with
      | mk u nn tt ii =>
        rw [show write_children ([] : List Item) 1 = [] from rfl]
        simp only [parseLines, List.append_nil]⟩
  | it :: its', h, res, ns, b => by
    rw [show write_children (it :: its') 1 = write_item it 1 ++ write_children its' 1
        from rfl,
      parseLines_append,
      parse_item_block it (h it (List.mem_cons_self it its')) res ns b,
      Option.some_bind]
    obtain ⟨b', hb⟩ := parse_items_blocks its' (fun x hx => h x (List.mem_cons_of_mem it hx))
      res { ns with items := ns.items ++ [it] } true
    refine ⟨b', ?_⟩
    rw [hb,
      show ({ ns with items := ns.items ++ [it] } : Namespace).items = ns.items ++ [it]
        from rfl,
      List.append_assoc,
      show ([it] ++ its') = it :: its' from rfl]

/-- Parsing back the lines for one clean namespace flushes the previous
namespace and leaves the parsed one in progress, reconstructed exactly. -/
theorem parse_ns_block (ns : Namespace) (h : CleanNs ns) (res : List Namespace)
    (prev : Option Namespace) (b : Bool) :
    ∃ b', parseLines (nsLines ns) ⟨res, prev, b⟩ =
      some ⟨res ++ flushList prev, some ns, b'⟩ := by
  obtain ⟨hnm, hty, huid, hits⟩ := h
  cases ns with
  | mk u no t its =>
    cases no with
    | none => exact hnm.elim
    | some n =>
      cases t with
      | none => exact hty.elim
      | some ty =>
        obtain ⟨hu1, hu2⟩ := nsUid_line u huid
        obtain ⟨hn1, hn2⟩ := nsName_line n hnm
        obtain ⟨ht1, ht2⟩ := nsType_line ty hty
        have e1 : parseLine (⟨res, prev, b⟩ : PState) ("- uid: " ++ u) =
            some ⟨res ++ flushList prev, some ⟨u, none, none, []⟩, false⟩ := by
          rw [parseLine_nsStart (⟨res, prev, b⟩ : PState) ("- uid: " ++ u) hu1, hu2]
        have e2 : parseLine (⟨res ++ flushList prev, some ⟨u, none, none, []⟩,
            false⟩ : PState) ("  name: " ++ n) =
            some ⟨res ++ flushList prev, some ⟨u, some n, none, []⟩, false⟩ := by
          rw [parseLine_nsName (⟨res ++ flushList prev, some ⟨u, none, none, []⟩,
            false⟩ : PState) ("  name: " ++ n) ⟨u, none, none, []⟩ hn1 rfl rfl, hn2]
        have e3 : parseLine (⟨res ++ flushList prev, some ⟨u, some n, none, []⟩,
            false⟩ : PState) ("  type: " ++ ty) =
            some ⟨res ++ flushList prev, some ⟨u, some n, some ty, []⟩, false⟩ := by
          rw [parseLine_nsType (⟨res ++ flushList prev, some ⟨u, some n, none, []⟩,
            false⟩ : PState) ("  type: " ++ ty) ⟨u, some n, none, []⟩ ht1 rfl rfl, ht2]
        cases its with
        | nil =>
          refine ⟨false, ?_⟩
          rw [show nsLines (Namespace.mk u (some n) (some ty) []) =
            ["- uid: " ++ u, "  name: " ++ n, "  type: " ++ ty] from rfl]
          simp only [parseLines, e1, e2, e3]
        | cons i0 is0 =>
          rw [show nsLines (Namespace.mk u (some n) (some ty) (i0 :: is0)) =
            ["- uid: " ++ u, "  name: " ++ n, "  type: " ++ ty, "  items:"] ++
              write_children (i0 :: is0) 1 from rfl,
            parseLines_append]
          have e4 : parseLines
              ["- uid: " ++ u, "  name: " ++ n, "  type: " ++ ty, "  items:"]
              (⟨res, prev, b⟩ : PState) =
              some ⟨res ++ flushList prev, some ⟨u, some n, some ty, []⟩, false⟩ := by
            simp only [parseLines, e1, e2, e3, parseLine_skip_items2]
          rw [e4, Option.some_bind]
          obtain ⟨b', hb⟩ := parse_items_blocks (i0 :: is0) hits
            (res ++ flushList prev) ⟨u, some n, some ty, []⟩ false
          exact ⟨b', hb⟩

/-- Parsing back the lines for a clean forest appends it whole to the flushed
result (after flushing whatever namespace was in progress). -/
theorem parse_forest_blocks :
    ∀ (F : List Namespace), CleanForest F →
      ∀ (res : List Namespace) (prev : Option Namespace) (b : Bool),
      ∃ st', parseLines (F.flatMap nsLines) ⟨res, prev, b⟩ = some st' ∧
        finalize st' = (res ++ flushList prev) ++ F
  | [], _, res, prev, b => ⟨⟨res, prev, b⟩, rfl, by simp [finalize]⟩
  | ns :: F', hF, res, prev, b => by
    rw [show ((ns :: F').flatMap nsLines) = nsLines ns ++ F'.flatMap nsLines from
        List.flatMap_cons ns F' nsLines,
      parseLines_append]
    obtain ⟨b', hb⟩ := parse_ns_block ns (hF ns (List.mem_cons_self ns F')) res prev b
    rw [hb, Option.some_bind]
    obtain ⟨st', hst, hfin⟩ :=
      parse_forest_blocks F' (fun x hx => hF x (List.mem_cons_of_mem ns hx))
        (res ++ flushList prev) (some ns) b'
    refine ⟨st', hst, ?_⟩
    rw [hfin, show flushList (some ns) = [ns] from rfl]
    simp [List.append_assoc]

/-- C2: round-trip: for every clean forest (all name, type and identifier
fields set, stripped, newline-free and not containing their own field marker,
and every item flat, i.e. without children), re-parsing the writer's output
reconstructs the forest exactly — identifiers, names, kinds, and order. -/
theorem c2_amended_roundtrip (F : List Namespace) (hF : CleanForest F) :
    parse_toc (write_toc F) = some F := by
  unfold parse_toc
  rw [splitLines_write_toc hF,
    show write_toc_lines F ++ [""] =
      "### YamlMime:TableOfContent" :: "items:" :: (F.flatMap nsLines ++ [""]) from by
        simp [write_toc_lines]]
  obtain ⟨st', hst, hfin⟩ := parse_forest_blocks F hF [] none false
  have key : parseLines
      ("### YamlMime:TableOfContent" :: "items:" :: (F.flatMap nsLines ++ [""]))
      (⟨[], none, false⟩ : PState) = some st' := by
    simp only [parseLines, parseLine_skip_header, parseLine_skip_items0]
    rw [parseLines_append, hst, Option.some_bind]
    simp only [parseLines, parseLine_skip_empty]
  rw [key, show (some st').map finalize = some (finalize st') from rfl, hfin]
  rfl

/-- C2 witness: a concrete clean flat forest round-trips exactly through the
writer and the parser. -/
theorem c2_witness :
    CleanForest [(⟨"N1", some "N1", some "Namespace",
      [Item.mk "a" (some "Widget") (some "Class") []]⟩ : Namespace)] ∧
    parse_toc (write_toc [(⟨"N1", some "N1", some "Namespace",
      [Item.mk "a" (some "Widget") (some "Class") []]⟩ : Namespace)]) =
      some [(⟨"N1", some "N1", some "Namespace",
        [Item.mk "a" (some "Widget") (some "Class") []]⟩ : Namespace)] := by
  have hclean : CleanForest [(⟨"N1", some "N1", some "Namespace",
      [Item.mk "a" (some "Widget") (some "Class") []]⟩ : Namespace)] := by
    intro ns hns
    rw [List.mem_singleton] at hns
    subst hns
    refine ⟨(by decide : CleanFor "name:" "N1"),
      (by decide : CleanFor "type:" "Namespace"),
      (by decide : CleanFor "- uid:" "N1"), ?_⟩
    intro it hit
    have hit' : it ∈ [Item.mk "a" (some "Widget") (some "Class") []] := hit
    rw [List.mem_singleton] at hit'
    subst hit'
    exact ⟨rfl, (by decide : CleanFor "name:" "Widget"),
      (by decide : CleanFor "type:" "Class"), (by decide : CleanFor "- uid:" "a")⟩
  exact ⟨hclean, c2_amended_roundtrip _ hclean⟩

end NestToc
